import Mathlib

/-!
Verification of the YouTube-channel scraper (`scrape_youtube_channel.py`) and
its bundled minimal HTML tree builder (`bs4/__init__.py`).

Shallow embedding conventions:
* Python `str` values that flow through the scraper's data structures are
  modelled as Lean `String`; strings that are *scanned character by character*
  (script text, JSON source) are modelled as `List Char`.
* JSON-shaped Python objects (results of `json.loads`) are modelled by the
  `PyVal` type below.  Python's `None` and the JSON `null` value are one and
  the same runtime object, so `PyVal.none` models both — exactly as in the
  source, where `_find_value` cannot distinguish "key bound to null" from
  "key absent".
* `json.loads` (standard library, external to the repository) is modelled by
  `parseJson`, a recursive-descent parser over `List Char` following the
  grammar `json.loads` accepts in its default (strict) mode: objects with
  last-binding-wins duplicate keys, arrays, strings (escapes including
  `\uXXXX` with surrogate-pair combination; raw control characters below
  `0x20` rejected as in strict mode), numbers (arbitrary-precision integers;
  floats and the non-standard `Infinity`/`-Infinity`/`NaN` constants are
  accepted and carried as their opaque lexeme, since IEEE-754 float values
  are not representable in the shallow embedding — no claim computes with a
  float value), booleans and null.  Two disclosed representation limits: a
  *lone* surrogate escape, which Python keeps in the `str`, is unrepresentable
  as a Lean `Char` and decodes to U+FFFD (parse success still agrees), and a
  float lexeme's truthiness is judged from its digits, so lexemes that only
  underflow to `0.0` (e.g. `1e-400`) are out of the model.
* The network transport (`urllib`) is external; continuation fetches are an
  abstract parameter `fetchC : String → PyVal` giving the already-parsed JSON
  response for a continuation token.  The `html.parser` tokenizer (standard
  library) is likewise external: the tree builder is embedded at the level of
  its `handle_starttag` / `handle_endtag` / `handle_data` callbacks.
* The stateful crawl loop of `scrape` / `_iterate_continuations` is embedded
  as a fuel-indexed recursion; `Option.none` signals that the fuel ran out
  before the loop finished, so theorems quantified over fuel cover every
  terminating execution.
-/

/-! ### Python object model -/

/-- Python/JSON values as produced by `json.loads`.  `PyVal.none` is Python's
`None`, which is also the image of JSON `null`. -/
inductive PyVal where
  | none
  | bool (b : Bool)
  | int (n : Int)
  | float (lexeme : String)
  | str (s : String)
  | list (items : List PyVal)
  | dict (entries : List (String × PyVal))

/-- First binding of `key` in a Python dict, modelled as an association list
in insertion order (`d.get(key)` / `d[key]`). -/
def pyLookup : List (String × PyVal) → String → Option PyVal
  | [], _ => Option.none
  | (k, v) :: rest, key => if k = key then some v else pyLookup rest key

/-- Python `d.get(key)`: the binding, or `None` when absent. -/
def pyGet (entries : List (String × PyVal)) (key : String) : PyVal :=
  (pyLookup entries key).getD PyVal.none

/-- Does a JSON float lexeme denote `±0.0`?  True exactly when every mantissa
digit (before any exponent marker) is `0`; `Infinity`/`NaN` are nonzero.
Lexemes whose value merely underflows to `0.0` (e.g. `1e-400`) are outside
the model (IEEE-754 rounding is not embedded). -/
def floatLexZero (lex : String) : Bool :=
  (lex.toList.takeWhile (fun c => ¬ (c = 'e' ∨ c = 'E'))).all
      (fun c => ¬ ('1' ≤ c ∧ c ≤ '9'))
    && lex != "Infinity" && lex != "-Infinity" && lex != "NaN"

/-- Python truthiness (`if x:`) on the modelled values. -/
def pyTruthy : PyVal → Bool
  | PyVal.none => false
  | PyVal.bool b => b
  | PyVal.int n => n != 0
  | PyVal.float lex => !floatLexZero lex
  | PyVal.str s => s != ""
  | PyVal.list l => !l.isEmpty
  | PyVal.dict l => !l.isEmpty

/-- `isinstance(v, list)` view. -/
def asList : PyVal → Option (List PyVal)
  | PyVal.list l => some l
  | _ => Option.none

/-- `isinstance(v, dict)` view. -/
def asDict : PyVal → Option (List (String × PyVal))
  | PyVal.dict l => some l
  | _ => Option.none

/-! ### Character-level helpers for `_extract_json_object` -/

def lbrace : Char := '\x7b'

def rbrace : Char := '\x7d'

def lbrack : Char := '['

def rbrack : Char := ']'

/-- Does `pat` occur at the head of `l`? -/
def startsWithL : List Char → List Char → Bool
  | [], _ => true
  | _ :: _, [] => false
  | p :: ps, c :: cs => p = c && startsWithL ps cs

def findSubAux (pat : List Char) : List Char → Nat → Option Nat
  | [], i => if startsWithL pat [] then some i else Option.none
  | c :: rest, i =>
    if startsWithL pat (c :: rest) then some i else findSubAux pat rest (i + 1)

/-- Python `text.find(pat)`: index of the first occurrence (here `Option.none`
instead of `-1`). -/
def findSub (text pat : List Char) : Option Nat := findSubAux pat text 0

def findCharAux (c : Char) : List Char → Nat → Option Nat
  | [], _ => Option.none
  | x :: xs, i => if x = c then some i else findCharAux c xs (i + 1)

/-- Python `text.find(c, start)` for a single character. -/
def findCharFrom (text : List Char) (c : Char) (start : Nat) : Option Nat :=
  findCharAux c (text.drop start) start

/-- The balanced-delimiter scan of `_extract_json_object` (lines 163–170 of
`scrape_youtube_channel.py`): one combined depth counter over `\x7b`/`\x7d`
and `[`/`]`, oblivious to string literals; returns the absolute position at
which the counter first returns to zero.  `pos` tracks the absolute index of
the head of the remaining text, `depth` is the running counter. -/
def scanDepth : List Char → Nat → Int → Option Nat
  | [], _, _ => Option.none
  | c :: rest, pos, depth =>
    if c = lbrace ∨ c = lbrack then scanDepth rest (pos + 1) (depth + 1)
    else if c = rbrace ∨ c = rbrack then
      if depth - 1 = 0 then some pos else scanDepth rest (pos + 1) (depth - 1)
    else scanDepth rest (pos + 1) depth

/-! ### Model of `json.loads` -/

def jsonWs (c : Char) : Bool := c = ' ' || c = '\t' || c = '\n' || c = '\r'

def skipWs : List Char → List Char
  | [] => []
  | c :: cs => if jsonWs c then skipWs cs else c :: cs

def hexVal (c : Char) : Option Nat :=
  if '0' ≤ c ∧ c ≤ '9' then some (c.toNat - 48)
  else if 'a' ≤ c ∧ c ≤ 'f' then some (c.toNat - 87)
  else if 'A' ≤ c ∧ c ≤ 'F' then some (c.toNat - 55)
  else Option.none

/-- Body of a JSON string after the opening quote: returns the decoded
characters and the remaining input after the closing quote.  As in
`json.loads` strict mode, a raw control character below `0x20` is rejected;
a high/low `\uXXXX` surrogate pair is combined into one character, and a
*lone* surrogate — which Python keeps in the `str` but no Lean `Char` can
carry — decodes to U+FFFD (the parse still succeeds, as in Python).  The
`Nat` argument is recursion fuel: every step consumes at least one input
character, so `length + 1` fuel always suffices. -/
def parseStringAux : Nat → List Char → Option (List Char × List Char)
  | 0, _ => Option.none
  | _, [] => Option.none
  | fuel + 1, c :: cs =>
    if c = '"' then some ([], cs)
    else if c = '\\' then
      match cs with
      | [] => Option.none
      | e :: cs' =>
        if e = 'u' then
          match cs' with
          | h1 :: h2 :: h3 :: h4 :: cs'' =>
            match hexVal h1, hexVal h2, hexVal h3, hexVal h4 with
            | some a, some b, some c2, some d2 =>
              let n := ((a * 16 + b) * 16 + c2) * 16 + d2
              if 0xD800 ≤ n ∧ n ≤ 0xDBFF then
                match cs'' with
                | '\\' :: 'u' :: g1 :: g2 :: g3 :: g4 :: cs3 =>
                  (match hexVal g1, hexVal g2, hexVal g3, hexVal g4 with
                   | some a2, some b2, some c3, some d3 =>
                     let m := ((a2 * 16 + b2) * 16 + c3) * 16 + d3
                     if 0xDC00 ≤ m ∧ m ≤ 0xDFFF then
                       (parseStringAux fuel cs3).map
                         (fun pr =>
                           (Char.ofNat (0x10000 + (n - 0xD800) * 0x400 + (m - 0xDC00))
                             :: pr.1, pr.2))
                     else (parseStringAux fuel cs'').map (fun pr => ('\uFFFD' :: pr.1, pr.2))
                   | _, _, _, _ =>
                     (parseStringAux fuel cs'').map (fun pr => ('\uFFFD' :: pr.1, pr.2)))
                | _ => (parseStringAux fuel cs'').map (fun pr => ('\uFFFD' :: pr.1, pr.2))
              else if 0xDC00 ≤ n ∧ n ≤ 0xDFFF then
                (parseStringAux fuel cs'').map (fun pr => ('\uFFFD' :: pr.1, pr.2))
              else
                (parseStringAux fuel cs'').map (fun pr => (Char.ofNat n :: pr.1, pr.2))
            | _, _, _, _ => Option.none
          | _ => Option.none
        else
          let dec : Option Char :=
            if e = '"' then some '"'
            else if e = '\\' then some '\\'
            else if e = '/' then some '/'
            else if e = 'n' then some '\n'
            else if e = 't' then some '\t'
            else if e = 'r' then some '\r'
            else if e = 'b' then some (Char.ofNat 8)
            else if e = 'f' then some (Char.ofNat 12)
            else Option.none
          match dec with
          | some d => (parseStringAux fuel cs').map (fun pr => (d :: pr.1, pr.2))
          | Option.none => Option.none
    else if c.toNat < 32 then Option.none
    else (parseStringAux fuel cs).map (fun pr => (c :: pr.1, pr.2))

def takeDigits : List Char → (List Char × List Char)
  | [] => ([], [])
  | c :: cs =>
    if '0' ≤ c ∧ c ≤ '9' then
      let (ds, r) := takeDigits cs
      (c :: ds, r)
    else ([], c :: cs)

def digitsToNat (ds : List Char) : Nat :=
  ds.foldl (fun a d => a * 10 + (d.toNat - 48)) 0

def mkIntVal (neg : Bool) (ds : List Char) : PyVal :=
  let n : Int := Int.ofNat (digitsToNat ds)
  PyVal.int (if neg then -n else n)

/-- Exponent tail after `e`/`E`: optional sign, one or more digits; returns
the exponent's characters (sign included) and the rest. -/
def parseExponent (l : List Char) : Option (List Char × List Char) :=
  let (sgn, l1) : List Char × List Char :=
    match l with
    | '+' :: r => (['+'], r)
    | '-' :: r => (['-'], r)
    | _ => ([], l)
  match takeDigits l1 with
  | ([], _) => Option.none
  | (d :: ds, r) => some (sgn ++ d :: ds, r)

/-- JSON numbers as `json.loads` accepts them: `-? (0 | [1-9][0-9]*)
(. [0-9]+)? ([eE][+-]?[0-9]+)?` — a leading zero followed by another digit is
rejected — plus the non-standard constants `Infinity`, `-Infinity` and `NaN`
that `json.loads` accepts by default.  An integer lexeme yields an
arbitrary-precision `PyVal.int`; a lexeme with a fraction or exponent (or a
constant) yields `PyVal.float` carrying its lexeme — the IEEE-754 double it
denotes is opaque to the model. -/
def parseNumber (l : List Char) : Option (PyVal × List Char) :=
  let (neg, l1) := match l with
    | '-' :: r => (true, r)
    | _ => (false, l)
  let sign : List Char := if neg then ['-'] else []
  match l1 with
  | 'I' :: 'n' :: 'f' :: 'i' :: 'n' :: 'i' :: 't' :: 'y' :: r =>
    some (PyVal.float ⟨sign ++ "Infinity".toList⟩, r)
  | 'N' :: 'a' :: 'N' :: r =>
    if neg then Option.none else some (PyVal.float "NaN", r)
  | _ =>
    match takeDigits l1 with
    | ([], _) => Option.none
    | (d :: ds, r) =>
      if d = '0' ∧ ds ≠ [] then Option.none
      else
        match r with
        | '.' :: r2 =>
          (match takeDigits r2 with
           | ([], _) => Option.none
           | (fd :: fds, r3) =>
             match r3 with
             | e :: r4 =>
               if e = 'e' ∨ e = 'E' then
                 (match parseExponent r4 with
                  | some (expChars, r5) =>
                    some (PyVal.float
                      ⟨sign ++ (d :: ds) ++ '.' :: (fd :: fds) ++ e :: expChars⟩, r5)
                  | Option.none => Option.none)
               else
                 some (PyVal.float ⟨sign ++ (d :: ds) ++ '.' :: (fd :: fds)⟩, e :: r4)
             | [] => some (PyVal.float ⟨sign ++ (d :: ds) ++ '.' :: (fd :: fds)⟩, []))
        | e :: r2 =>
          if e = 'e' ∨ e = 'E' then
            (match parseExponent r2 with
             | some (expChars, r3) =>
               some (PyVal.float ⟨sign ++ (d :: ds) ++ e :: expChars⟩, r3)
             | Option.none => Option.none)
          else some (mkIntVal neg (d :: ds), e :: r2)
        | [] => some (mkIntVal neg (d :: ds), [])

/-- One `d[key] = value` assignment on a Python dict modelled as an
association list: an existing key keeps its position and gets the new value,
a new key is appended. -/
def dictInsert (entries : List (String × PyVal)) (k : String) (v : PyVal) :
    List (String × PyVal) :=
  match entries with
  | [] => [(k, v)]
  | (k', v') :: rest => if k' = k then (k', v) :: rest else (k', v') :: dictInsert rest k v

/-- Build a Python dict from the parsed member pairs in source order:
`json.loads` assigns each pair in turn, so a duplicated key keeps its first
position and its last value. -/
def dictFromPairs (pairs : List (String × PyVal)) : List (String × PyVal) :=
  pairs.foldl (fun acc kv => dictInsert acc kv.1 kv.2) []

mutual

def parseValue : Nat → List Char → Option (PyVal × List Char)
  | 0, _ => Option.none
  | fuel + 1, l =>
    match skipWs l with
    | [] => Option.none
    | c :: cs =>
      if c = '"' then
        (parseStringAux (cs.length + 1) cs).map (fun pr => (PyVal.str ⟨pr.1⟩, pr.2))
      else if c = lbrace then
        match skipWs cs with
        | '\x7d' :: r => some (PyVal.dict [], r)
        | rest =>
          (parseMembers fuel rest).map (fun pr => (PyVal.dict (dictFromPairs pr.1), pr.2))
      else if c = lbrack then
        match skipWs cs with
        | ']' :: r => some (PyVal.list [], r)
        | rest => (parseItems fuel rest).map (fun pr => (PyVal.list pr.1, pr.2))
      else if c = 't' then
        match cs with
        | 'r' :: 'u' :: 'e' :: r => some (PyVal.bool true, r)
        | _ => Option.none
      else if c = 'f' then
        match cs with
        | 'a' :: 'l' :: 's' :: 'e' :: r => some (PyVal.bool false, r)
        | _ => Option.none
      else if c = 'n' then
        match cs with
        | 'u' :: 'l' :: 'l' :: r => some (PyVal.none, r)
        | _ => Option.none
      else parseNumber (c :: cs)

def parseMembers : Nat → List Char → Option (List (String × PyVal) × List Char)
  | 0, _ => Option.none
  | fuel + 1, l =>
    match skipWs l with
    | '"' :: cs =>
      match parseStringAux (cs.length + 1) cs with
      | some (kcs, r1) =>
        match skipWs r1 with
        | ':' :: r2 =>
          match parseValue fuel r2 with
          | some (v, r3) =>
            match skipWs r3 with
            | ',' :: r4 => (parseMembers fuel r4).map (fun pr => ((⟨kcs⟩, v) :: pr.1, pr.2))
            | '\x7d' :: r4 => some ([(⟨kcs⟩, v)], r4)
            | _ => Option.none
          | Option.none => Option.none
        | _ => Option.none
      | Option.none => Option.none
    | _ => Option.none

def parseItems : Nat → List Char → Option (List PyVal × List Char)
  | 0, _ => Option.none
  | fuel + 1, l =>
    match parseValue fuel l with
    | some (v, r1) =>
      match skipWs r1 with
      | ',' :: r2 => (parseItems fuel r2).map (fun pr => (v :: pr.1, pr.2))
      | ']' :: r2 => some ([v], r2)
      | _ => Option.none
    | Option.none => Option.none

end

/-- Model of `json.loads` on a character list: a full-input parse. -/
def parseJson (l : List Char) : Option PyVal :=
  match parseValue (l.length + 2) l with
  | some (v, rest) => if skipWs rest = [] then some v else Option.none
  | Option.none => Option.none

/-! ### `YouTubeChannelScraper._extract_json_object` (lines 156–176) -/

/-- Lower half of `_extract_json_object`: balanced scan starting at absolute
position `j` of `text`, then `json.loads` on the slice `text[j : pos + 1]`. -/
def scanAndParse (text : List Char) (j : Nat) : Option PyVal :=
  match scanDepth (text.drop j) j 0 with
  | some pos => parseJson ((text.drop j).take (pos + 1 - j))
  | Option.none => Option.none

/-- `_extract_json_object(text, marker)`: find the marker, find the first
`\x7b` after it (a `[` is *not* searched for), balanced-scan, parse. -/
def extract_json_object (text marker : List Char) : Option PyVal :=
  match findSub text marker with
  | Option.none => Option.none
  | some i =>
    match findCharFrom text lbrace (i + marker.length) with
    | Option.none => Option.none
    | some j => scanAndParse text j

/-! ### `bs4` minimal tree (`bs4/__init__.py`)

A `Tag` owns its name, attributes and ordered children; text runs are plain
character lists.  Parent back-references are navigation-only in the source, so
the embedding keeps the tree pure and represents the builder's "current node"
as a path of child indices (see `BState`). -/

inductive Node where
  | elem (name : String) (attrs : List (String × String)) (children : List Node)
  | text (s : List Char)

def nodeChildren : Node → List Node
  | Node.elem _ _ cs => cs
  | Node.text _ => []

def nodeName : Node → Option String
  | Node.elem n _ _ => some n
  | Node.text _ => Option.none

def nameMatches : Option String → String → Bool
  | Option.none, _ => true
  | some s, n => s = n

mutual

/-- `Tag.find_all` over a list of children: matching tags in document order,
each followed by the matches of its own subtree (lines 62–74). -/
def find_all_list (name : Option String) : List Node → List Node
  | [] => []
  | c :: rest => find_all_into name c ++ find_all_list name rest

/-- The per-child contribution to `find_all`: the child itself when it is a
matching tag, followed by the matches inside it. -/
def find_all_into (name : Option String) : Node → List Node
  | Node.text _ => []
  | Node.elem n a gc =>
    (if nameMatches name n then [Node.elem n a gc] else []) ++ find_all_list name gc

end

/-- `Tag.find_all(name)` on a node (`BeautifulSoup.find_all` delegates to the
root tag). -/
def find_all (name : Option String) (nd : Node) : List Node :=
  find_all_list name (nodeChildren nd)

/-- Python `str.strip()` whitespace set: the characters `str.isspace()`
accepts, transcribed from CPython's Unicode whitespace table — ASCII
`\t \n \x0b \x0c \r`, the C1 controls `\x1c`–`\x1f`, space, NEL `\x85`,
NBSP `\xa0`, Ogham space `\u1680`, the `\u2000`–`\u200a` range, line and
paragraph separators `\u2028`/`\u2029`, `\u202f`, `\u205f` and ideographic
space `\u3000`. -/
def isPySpace (c : Char) : Bool :=
  c = ' ' || c = '\t' || c = '\n' || c = '\r' || c = '\x0b' || c = '\x0c'
    || c = '\x1c' || c = '\x1d' || c = '\x1e' || c = '\x1f'
    || c = '\x85' || c = '\xa0' || c = '\u1680'
    || ('\u2000' ≤ c && c ≤ '\u200a')
    || c = '\u2028' || c = '\u2029' || c = '\u202f' || c = '\u205f' || c = '\u3000'

/-- Python `str.strip()`. -/
def stripL (l : List Char) : List Char :=
  ((l.dropWhile isPySpace).reverse.dropWhile isPySpace).reverse

mutual

/-- `Tag.get_text(strip)` (lines 95–105): concatenate the parts produced per
child — a string child contributes itself, stripped when `strip` is set; a tag
child contributes its own `get_text(strip)` — then strip the joined result
when `strip` is set. -/
def get_text (strip : Bool) : Node → List Char
  | Node.text s => if strip then stripL s else s
  | Node.elem _ _ cs =>
    let t := get_text_children strip cs
    if strip then stripL t else t

def get_text_children (strip : Bool) : List Node → List Char
  | [] => []
  | c :: cs => get_text strip c ++ get_text_children strip cs

end

def isTextNode : Node → Bool
  | Node.text _ => true
  | Node.elem _ _ _ => false

def textOf : Node → List Char
  | Node.text s => s
  | Node.elem _ _ _ => []

/-- `Tag.string` (lines 82–93): `""` when childless, the sole string child,
the join when every child is a string, otherwise `None`. -/
def tag_string (cs : List Node) : Option (List Char) :=
  match cs with
  | [] => some []
  | [Node.text s] => some s
  | _ => if cs.all isTextNode then some ((cs.map textOf).flatten) else Option.none

/-! ### `_SoupBuilder` (lines 117–147), embedded at callback level -/

/-- Tokenizer events as delivered by `html.parser` (the tokenizer itself is
the Python standard library, external to the repository). -/
inductive Ev where
  | startTag (name : String) (attrs : List (String × String))
  | endTag (name : String)
  | charData (s : List Char)

def modifyIdx {α : Type} (f : α → α) : List α → Nat → List α
  | [], _ => []
  | x :: xs, 0 => f x :: xs
  | x :: xs, n + 1 => x :: modifyIdx f xs n

/-- Append `c` as last child of the node at `path` (indices root-first). -/
def appendAt (nd : Node) (path : List Nat) (c : Node) : Node :=
  match nd, path with
  | Node.elem n a cs, [] => Node.elem n a (cs ++ [c])
  | Node.elem n a cs, i :: p => Node.elem n a (modifyIdx (fun ch => appendAt ch p c) cs i)
  | Node.text s, _ => Node.text s

def getAt : Node → List Nat → Option Node
  | nd, [] => some nd
  | Node.elem _ _ cs, i :: p =>
    match cs.get? i with
    | some c => getAt c p
    | Option.none => Option.none
  | Node.text _, _ :: _ => Option.none

def nameAt (nd : Node) (path : List Nat) : Option String :=
  match getAt nd path with
  | some n => nodeName n
  | Option.none => Option.none

def childCountAt (nd : Node) (path : List Nat) : Nat :=
  match getAt nd path with
  | some n => (nodeChildren n).length
  | Option.none => 0

/-- Builder state: the tree so far and the current insertion point, stored as
the reversed index path from the root (`[]` = the `[document]` root itself,
which is `self.root`; `self.current` is the node at `rpath.reverse`). -/
structure BState where
  root : Node
  rpath : List Nat

def initState : BState := ⟨Node.elem "[document]" [] [], []⟩

/-- The `handle_endtag` upward cursor walk (lines 132–139): nearest ancestor
(inclusive, the root included) whose name is `t`, as a reversed path. -/
def findAnc (root : Node) (t : String) : List Nat → Option (List Nat)
  | [] => if nameAt root [] = some t then some [] else Option.none
  | i :: rest =>
    if nameAt root ((i :: rest).reverse) = some t then some (i :: rest)
    else findAnc root t rest

/-- One `html.parser` callback of `_SoupBuilder` (lines 126–143).
`handle_starttag` appends a fresh tag at the current node and descends into
it; `handle_data` appends a text child unless empty; `handle_endtag` walks
the ancestor chain for a matching name — on a hit the current node becomes the
matched ancestor's parent, otherwise (also when the hit is the parentless
root) the current node resets to the root. -/
def hstep (st : BState) : Ev → BState
  | Ev.startTag n a =>
    let p := st.rpath.reverse
    let idx := childCountAt st.root p
    ⟨appendAt st.root p (Node.elem n a []), idx :: st.rpath⟩
  | Ev.charData s =>
    if s = [] then st else ⟨appendAt st.root st.rpath.reverse (Node.text s), st.rpath⟩
  | Ev.endTag t =>
    match findAnc st.root t st.rpath with
    | some (_ :: rest) => ⟨st.root, rest⟩
    | some [] => ⟨st.root, []⟩
    | Option.none => ⟨st.root, []⟩

/-- `BeautifulSoup.__init__` + `close`: fold the event stream, return the
root.  Total — tree construction cannot fail on any event stream. -/
def buildTree (evs : List Ev) : Node :=
  (evs.foldl hstep initState).root

/-! ### `_find_json_in_scripts` (lines 145–154) -/

/-- `script.string or script.get_text()` followed by the `if not content:
continue` guard's subject: the per-script text content. -/
def scriptContent (nd : Node) : List Char :=
  match nd with
  | Node.elem _ _ cs =>
    match tag_string cs with
    | some s => if s = [] then get_text false nd else s
    | Option.none => get_text false nd
  | Node.text s => s

/-- Inner loop of `_find_json_in_scripts`: markers in caller priority order,
first successful parse wins. -/
def tryMarkers (content : List Char) : List (List Char) → Option PyVal
  | [] => Option.none
  | m :: ms =>
    match extract_json_object content m with
    | some v => some v
    | Option.none => tryMarkers content ms

/-- Outer loop of `_find_json_in_scripts`: scripts in document order, the
empty content skipped, the marker loop run per script. -/
def scriptsLoop (pats : List (List Char)) : List Node → Option PyVal
  | [] => Option.none
  | s :: rest =>
    let content := scriptContent s
    if content = [] then scriptsLoop pats rest
    else
      match tryMarkers content pats with
      | some v => some v
      | Option.none => scriptsLoop pats rest

/-- `_find_json_in_scripts(soup, patterns)` over the parsed document root. -/
def find_json_in_scripts (root : Node) (pats : List (List Char)) : Option PyVal :=
  scriptsLoop pats (find_all (some "script") root)

/-- Modelled from the amended reading of the spec's *Marker priority*
property: a script-major search — scripts in document order, and within each
script the markers in caller priority order; first success anywhere wins. -/
def scriptMajorSearch (contents : List (List Char)) (pats : List (List Char)) : Option PyVal :=
  contents.findSome? (fun c =>
    if c.isEmpty then Option.none
    else pats.findSome? (fun m => extract_json_object c m))

/-! ### `_find_value` (lines 335–348) -/

mutual

/-- `_find_value(node, key)`: on a dict, return the binding when the key is
present (even when the binding is `None`); otherwise recurse into the values,
then into list items, skipping every recursive result that is `None`. -/
def find_value : PyVal → String → PyVal
  | PyVal.dict l, key =>
    match pyLookup l key with
    | some v => v
    | Option.none => findValueEntries l key
  | PyVal.list items, key => findValueItems items key
  | _, _ => PyVal.none

def findValueEntries : List (String × PyVal) → String → PyVal
  | [], _ => PyVal.none
  | (_, v) :: rest, key =>
    match find_value v key with
    | PyVal.none => findValueEntries rest key
    | r => r

def findValueItems : List PyVal → String → PyVal
  | [], _ => PyVal.none
  | v :: rest, key =>
    match find_value v key with
    | PyVal.none => findValueItems rest key
    | r => r

end

mutual

/-- `key` occurs in no dict anywhere inside the value. -/
def keyAbsent : PyVal → String → Bool
  | PyVal.dict l, key => (pyLookup l key).isNone && keyAbsentEntries l key
  | PyVal.list items, key => keyAbsentItems items key
  | _, _ => true

def keyAbsentEntries : List (String × PyVal) → String → Bool
  | [], _ => true
  | (_, v) :: rest, key => keyAbsent v key && keyAbsentEntries rest key

def keyAbsentItems : List PyVal → String → Bool
  | [], _ => true
  | v :: rest, key => keyAbsent v key && keyAbsentItems rest key

end

/-! ### Video records and grid extraction (lines 50–67, 250–333) -/

/-- The `VideoEntry` dataclass. -/
structure VideoEntry where
  video_id : String
  title : String
  url : String
  view_count_text : Option String
  published_time : Option String
deriving DecidableEq

/-- `_extract_runs_text(runs)` (lines 324–333): the `text` field of every
dict item that carries a string there. -/
def extract_runs_text : PyVal → List String
  | PyVal.list items =>
    items.filterMap (fun it =>
      match it with
      | PyVal.dict l =>
        match pyLookup l "text" with
        | some (PyVal.str s) => some s
        | _ => Option.none
      | _ => Option.none)
  | _ => []

/-- `_extract_text(node)` (lines 304–314): a plain string, else `simpleText`,
else the joined `runs` when those are a list, else `None`. -/
def extract_text : PyVal → Option String
  | PyVal.str s => some s
  | PyVal.dict l =>
    (match pyLookup l "simpleText" with
     | some (PyVal.str s) => some s
     | _ =>
       match pyLookup l "runs" with
       | some (PyVal.list rs) => some (String.join (extract_runs_text (PyVal.list rs)))
       | _ => Option.none)
  | _ => Option.none

/-- `_extract_text_from_runs(data)` (lines 316–322): a present `runs` key wins
(whatever its type — a non-list joins to `""`), else a string `simpleText`. -/
def extract_text_from_runs : PyVal → Option String
  | PyVal.dict l =>
    (match pyLookup l "runs" with
     | some rv => some (String.join (extract_runs_text rv))
     | Option.none =>
       match pyLookup l "simpleText" with
       | some (PyVal.str s) => some s
       | _ => Option.none)
  | _ => Option.none

/-- `_parse_video_renderer(renderer)` (lines 273–284). -/
def parse_video_renderer (video : List (String × PyVal)) : Option VideoEntry :=
  match pyGet video "videoId" with
  | PyVal.str vid =>
    some
      { video_id := vid
      , title := (extract_text_from_runs ((pyLookup video "title").getD (PyVal.dict []))).getD ""
      , url := "https://www.youtube.com/watch?v=" ++ vid
      , view_count_text := extract_text (pyGet video "viewCountText")
      , published_time := extract_text (pyGet video "publishedTimeText") }
  | _ => Option.none

/-- `_extract_continuation_token(renderer)` (lines 286–299). -/
def extract_continuation_token (r : List (String × PyVal)) : Option String :=
  match
    (match pyGet r "continuationEndpoint" with
     | PyVal.dict ep =>
       (match pyGet ep "continuationCommand" with
        | PyVal.dict cmd =>
          (match pyGet cmd "token" with
           | PyVal.str t => some t
           | _ => Option.none)
        | _ => Option.none)
     | _ => Option.none)
  with
  | some t => some t
  | Option.none =>
    match pyGet r "reloadContinuationData" with
    | PyVal.dict cd =>
      (match pyGet cd "continuation" with
       | PyVal.str t => some t
       | _ => Option.none)
    | _ => Option.none

/-- `_extract_videos_from_grid(items)` (lines 250–271): classify each grid
item; a dict-valued `richItemRenderer` is consumed (then `continue`), only
otherwise is `continuationItemRenderer` tried; a falsy (empty) token is
dropped. -/
def extract_videos_from_grid : List PyVal → List VideoEntry × List String
  | [] => ([], [])
  | item :: rest =>
    let (vs, ts) := extract_videos_from_grid rest
    match item with
    | PyVal.dict l =>
      (match pyLookup l "richItemRenderer" with
       | some (PyVal.dict rir) =>
         (match pyLookup rir "content" with
          | some (PyVal.dict content) =>
            (match pyLookup content "videoRenderer" with
             | some (PyVal.dict video) =>
               (match parse_video_renderer video with
                | some e => (e :: vs, ts)
                | Option.none => (vs, ts))
             | _ => (vs, ts))
          | _ => (vs, ts))
       | _ =>
         match pyLookup l "continuationItemRenderer" with
         | some (PyVal.dict cir) =>
           (match extract_continuation_token cir with
            | some t => if t = "" then (vs, ts) else (vs, t :: ts)
            | Option.none => (vs, ts))
         | _ => (vs, ts))
    | _ => (vs, ts)

/-! ### `_prepare_api`, `_extract_initial_grid` (lines 178–208) -/

/-- `_prepare_api(config)`: a string API key and a dict context, else the
session aborts (`Option.none`). -/
def prepare_api (config : PyVal) : Option (String × List (String × PyVal)) :=
  match config with
  | PyVal.dict l =>
    (match pyGet l "INNERTUBE_API_KEY", pyGet l "INNERTUBE_CONTEXT" with
     | PyVal.str k, PyVal.dict c => some (k, c)
     | _, _ => Option.none)
  | _ => Option.none

def pySubscript (v : PyVal) (k : String) : Option PyVal :=
  match v with
  | PyVal.dict l => pyLookup l k
  | _ => Option.none

/-- The `for tab in tabs` loop of `_extract_initial_grid`: first selected tab
whose content holds a `richGridRenderer` with a list of `contents`; every
failed shape check — including a non-dict `tab` entry, whose
`renderer = tab.get(...) if isinstance(tab, dict) else None` comes out
`None` — falls through to the next tab. -/
def findGridInTabs : List PyVal → Option (List PyVal)
  | [] => Option.none
  | tab :: rest =>
    match tab with
    | PyVal.dict tl =>
      (match pyLookup tl "tabRenderer" with
       | some (PyVal.dict r) =>
         if pyTruthy (pyGet r "selected") then
           match pyGet r "content" with
           | PyVal.dict content =>
             (match asDict (find_value (PyVal.dict content) "richGridRenderer") with
              | some g =>
                (match pyGet g "contents" with
                 | PyVal.list cs => some cs
                 | _ => findGridInTabs rest)
              | Option.none => findGridInTabs rest)
           | _ => findGridInTabs rest
         else findGridInTabs rest
       | _ => findGridInTabs rest)
    | _ => findGridInTabs rest

/-- `_extract_initial_grid(initial_data)` (lines 189–208); `Option.none`
models the fatal `RuntimeError` paths (including iteration over a non-list
`tabs`, which the model does not distinguish further). -/
def extract_initial_grid (initial_data : PyVal) : Option (List PyVal) :=
  match
    ((pySubscript initial_data "contents").bind
      (fun c => pySubscript c "twoColumnBrowseResultsRenderer")).bind
      (fun c => pySubscript c "tabs")
  with
  | some (PyVal.list tabs) => findGridInTabs tabs
  | _ => Option.none

/-! ### The crawl loop (`scrape` lines 86–106, `_iterate_continuations`
lines 213–237)

`scrape` drives the generator with `for token in ...: if token is None:
break`.  A page whose response has no list-valued `continuationItems` makes
the generator `yield None`; the consumer then *breaks*, so the generator is
abandoned (its `continue` after `yield None` never runs) and the whole crawl
stops.  `crawl` embeds this combined consumer+generator loop.  `iterGen`
embeds the generator in isolation, i.e. the loop `_iterate_continuations`
itself would run if it were drained past its `yield None`.

Both return the fetch trace — the list of `(token, length of collected at
the moment `_fetch_continuation` is called)` pairs — together with the final
accumulated list.  `Option.none` means the fuel ran out. -/

/-- `limit is not None and len(collected) >= limit`. -/
def limitHit (lim : Option Nat) (n : Nat) : Bool :=
  match lim with
  | some bound => bound ≤ n
  | Option.none => false

/-- The `for entry in videos` body (lines 229–235): skip seen ids, append
fresh entries, record the id, stop the generator when the limit is reached.
Returns `(seen, collected, stopped)`. -/
def addVideos (lim : Option Nat) : List VideoEntry → List String → List VideoEntry →
    List String × List VideoEntry × Bool
  | [], seen, coll => (seen, coll, false)
  | v :: vs, seen, coll =>
    if v.video_id ∈ seen then addVideos lim vs seen coll
    else
      let coll' := coll ++ [v]
      let seen' := v.video_id :: seen
      if limitHit lim coll'.length then (seen', coll', true)
      else addVideos lim vs seen' coll'

/-- The crawl as actually executed by `scrape`: FIFO queue, fetch, locate
`continuationItems` via `_find_value`; a non-list result makes the generator
yield `None` and the consumer break (crawl over); otherwise dedup-append the
page's videos (returning at the limit) and enqueue the page's tokens. -/
def crawl (fetchC : String → PyVal) (lim : Option Nat) :
    Nat → List String → List String → List VideoEntry →
    Option (List (String × Nat) × List VideoEntry)
  | 0, tokens, _, coll =>
    match tokens with
    | [] => some ([], coll)
    | _ => Option.none
  | _ + 1, [], _, coll => some ([], coll)
  | fuel + 1, t :: rest, seen, coll =>
    let response := fetchC t
    match asList (find_value response "continuationItems") with
    | Option.none => some ([(t, coll.length)], coll)
    | some items =>
      let (videos, newTokens) := extract_videos_from_grid items
      match addVideos lim videos seen coll with
      | (_, coll', true) => some ([(t, coll.length)], coll')
      | (seen', coll', false) =>
        (crawl fetchC lim fuel (rest ++ newTokens) seen' coll').map
          (fun pr => ((t, coll.length) :: pr.1, pr.2))

/-- `_iterate_continuations` drained on its own: identical to `crawl` except
that the missing-`continuationItems` page is skipped (`yield None` then
`continue`) and the loop goes on with the remaining queue. -/
def iterGen (fetchC : String → PyVal) (lim : Option Nat) :
    Nat → List String → List String → List VideoEntry →
    Option (List (String × Nat) × List VideoEntry)
  | 0, tokens, _, coll =>
    match tokens with
    | [] => some ([], coll)
    | _ => Option.none
  | _ + 1, [], _, coll => some ([], coll)
  | fuel + 1, t :: rest, seen, coll =>
    let response := fetchC t
    match asList (find_value response "continuationItems") with
    | Option.none =>
      (iterGen fetchC lim fuel rest seen coll).map
        (fun pr => ((t, coll.length) :: pr.1, pr.2))
    | some items =>
      let (videos, newTokens) := extract_videos_from_grid items
      match addVideos lim videos seen coll with
      | (_, coll', true) => some ([(t, coll.length)], coll')
      | (seen', coll', false) =>
        (iterGen fetchC lim fuel (rest ++ newTokens) seen' coll').map
          (fun pr => ((t, coll.length) :: pr.1, pr.2))

/-- Modelled from the spec's words for the dedup property: keep, for each
video id not already in `seen`, exactly its first occurrence, at its
position; later occurrences are dropped. -/
def firstOccurrences (seen : List String) : List VideoEntry → List VideoEntry
  | [] => []
  | v :: vs =>
    if v.video_id ∈ seen then firstOccurrences seen vs
    else v :: firstOccurrences (v.video_id :: seen) vs

/-- `crawl` instrumented to also return the *stream* of video entries of the
pages it processed, page by page in processed order (each page's full
`_extract_videos_from_grid` output, even when the limit stops the append
loop mid-page).  Identical branching to `crawl`; only the first output
component differs. -/
def crawlS (fetchC : String → PyVal) (lim : Option Nat) :
    Nat → List String → List String → List VideoEntry →
    Option (List VideoEntry × List VideoEntry)
  | 0, tokens, _, coll =>
    match tokens with
    | [] => some ([], coll)
    | _ => Option.none
  | _ + 1, [], _, coll => some ([], coll)
  | fuel + 1, t :: rest, seen, coll =>
    let response := fetchC t
    match asList (find_value response "continuationItems") with
    | Option.none => some ([], coll)
    | some items =>
      let (videos, newTokens) := extract_videos_from_grid items
      match addVideos lim videos seen coll with
      | (_, coll', true) => some (videos, coll')
      | (seen', coll', false) =>
        (crawlS fetchC lim fuel (rest ++ newTokens) seen' coll').map
          (fun pr => (videos ++ pr.1, pr.2))

/-- `collected[:limit]` when a limit was given. -/
def truncateLimit (lim : Option Nat) (l : List VideoEntry) : List VideoEntry :=
  match lim with
  | some n => l.take n
  | Option.none => l

/-- `scrape(limit)` from the point where the two bootstrap documents are in
hand (the page fetch and HTML tokenization being external): prepare the API
config, locate the initial grid, take its videos verbatim (no dedup!) as the
initial accumulator, seed `seen_ids` with their ids, run the crawl, truncate.
The fetch trace is returned alongside. -/
def scrapeTr (fetchC : String → PyVal) (fuel : Nat) (lim : Option Nat)
    (initial_data config : PyVal) :
    Option (List (String × Nat) × List VideoEntry) :=
  (prepare_api config).bind (fun _ =>
    (extract_initial_grid initial_data).bind (fun grid =>
      let pr := extract_videos_from_grid grid
      (crawl fetchC lim fuel pr.2 (pr.1.map VideoEntry.video_id) pr.1).map
        (fun tc => (tc.1, truncateLimit lim tc.2))))

/-- `scrape(limit)`'s return value. -/
def scrapeM (fetchC : String → PyVal) (fuel : Nat) (lim : Option Nat)
    (initial_data config : PyVal) : Option (List VideoEntry) :=
  (scrapeTr fetchC fuel lim initial_data config).map Prod.snd

/-! ### Concrete fixtures for witnesses and counterexamples -/

/-- A grid item carrying one `videoRenderer` with the given id. -/
def vidItem (id : String) : PyVal :=
  PyVal.dict [("richItemRenderer", PyVal.dict [("content", PyVal.dict
    [("videoRenderer", PyVal.dict [("videoId", PyVal.str id)])])])]

/-- A grid item carrying one continuation token. -/
def contItem (t : String) : PyVal :=
  PyVal.dict [("continuationItemRenderer", PyVal.dict [("continuationEndpoint",
    PyVal.dict [("continuationCommand", PyVal.dict [("token", PyVal.str t)])])])]

/-- An `ytInitialData` document whose selected tab holds the given grid. -/
def mkInitData (items : List PyVal) : PyVal :=
  PyVal.dict [("contents", PyVal.dict [("twoColumnBrowseResultsRenderer",
    PyVal.dict [("tabs", PyVal.list [PyVal.dict [("tabRenderer", PyVal.dict
      [("selected", PyVal.bool true), ("content", PyVal.dict
        [("richGridRenderer", PyVal.dict [("contents", PyVal.list items)])])])]])])])]

/-- A minimal valid `ytcfg` document. -/
def cfg0 : PyVal :=
  PyVal.dict [("INNERTUBE_API_KEY", PyVal.str "k"), ("INNERTUBE_CONTEXT", PyVal.dict [])]

/-- A continuation page carrying the given grid items. -/
def mkPage (items : List PyVal) : PyVal :=
  PyVal.dict [("continuationItems", PyVal.list items)]

/-- The `VideoEntry` produced from `vidItem id`. -/
def plainEntry (id : String) : VideoEntry :=
  ⟨id, "", "https://www.youtube.com/watch?v=" ++ id, Option.none, Option.none⟩

/-! ### Specification-side measures used by the theorems -/

/-- Contribution of one character to the combined depth counter. -/
def depthDelta (c : Char) : Int :=
  if c = lbrace ∨ c = lbrack then 1
  else if c = rbrace ∨ c = rbrack then -1
  else 0

/-- Combined depth after the first `k` characters of `l`. -/
def depthSum (l : List Char) (k : Nat) : Int :=
  ((l.take k).map depthDelta).sum

mutual

/-- Every text run in the subtree is invariant under `str.strip()`. -/
def runsClean : Node → Bool
  | Node.text s => stripL s = s
  | Node.elem _ _ cs => runsCleanList cs

def runsCleanList : List Node → Bool
  | [] => true
  | c :: cs => runsClean c && runsCleanList cs

end

/-- C1 witness fixture: the spec's own concrete scenario with a trailing
statement. -/
def textW : List Char := "var ytInitialData = \x7b\"a\":[1,\x7b\"b\":2\x7d]\x7d;rest".toList

def markerW : List Char := "var ytInitialData = ".toList

def bodyW : List Char := "\x7b\"a\":[1,\x7b\"b\":2\x7d]\x7d".toList

def trailW : List Char := ";rest".toList

def valW : PyVal :=
  PyVal.dict [("a", PyVal.list [PyVal.int 1, PyVal.dict [("b", PyVal.int 2)]])]

/-- C5 fixture: first script in document order matches only the later-listed
marker. -/
def scriptB : Node := Node.elem "script" [] [Node.text "B = \x7b\"x\":2\x7d".toList]

/-- C5 fixture: second script matches the earliest-listed marker. -/
def scriptA : Node := Node.elem "script" [] [Node.text "A = \x7b\"x\":1\x7d".toList]

def docRootC5 : Node :=
  Node.elem "[document]" [] [Node.elem "html" [] [scriptB, scriptA]]

/-- C9 fixture: whitespace at an element boundary. -/
def nodeC9 : Node :=
  Node.elem "a" [] [Node.text "hello ".toList, Node.elem "b" [] [Node.text "world".toList]]

/-- C7 fixture: builder state after `<html><body><p>`. -/
def stC7 : BState :=
  ([Ev.startTag "html" [], Ev.startTag "body" [], Ev.startTag "p" []] : List Ev).foldl
    hstep initState

/-! ## Theorems -/

/-! ### C8 — where the balanced scan starts -/

/-- [C8] counterexample.  The claim says the scan begins at the first `\x7b`
*or `[`* after the marker, so that a top-level JSON sequence is extracted and
parsed.  In `"m = [1,2];"` the first opening delimiter after the marker
`"m = "` is `[` and `[1,2]` is valid JSON (second conjunct), yet
`_extract_json_object` returns `None`: it only ever searches for `\x7b`. -/
theorem c8_bracket_counterexample :
    extract_json_object "m = [1,2];".toList "m = ".toList = Option.none ∧
      parseJson "[1,2]".toList = some (PyVal.list [PyVal.int 1, PyVal.int 2]) :=
  ⟨rfl, rfl⟩

/-- [C8] (amended) After the first occurrence of the marker, the balanced
scan begins at the first `\x7b` — not `[` — that follows: when no `\x7b`
follows the marker the extraction is absent (even if a `[` payload follows),
and when a `\x7b` is found at position `j` the whole extraction is exactly
the balanced scan-and-parse from `j`. -/
theorem c8_scan_starts_at_brace (text marker : List Char) (i : Nat)
    (h1 : findSub text marker = some i) :
    (findCharFrom text lbrace (i + marker.length) = Option.none →
      extract_json_object text marker = Option.none) ∧
    (∀ j, findCharFrom text lbrace (i + marker.length) = some j →
      extract_json_object text marker = scanAndParse text j) := by
  constructor
  · intro h2
    simp [extract_json_object, h1, h2]
  · intro j h2
    simp [extract_json_object, h1, h2]

/-- [C8] witness for `c8_scan_starts_at_brace`: both conjuncts discharged at
concrete inputs — a bracket-only payload (no `\x7b` follows, extraction
absent) and a braced payload (scan starts at the brace, position 4). -/
theorem c8_scan_starts_at_brace_witness :
    extract_json_object "m = [1,2];".toList "m = ".toList = Option.none ∧
      extract_json_object "q = \x7b\"z\":3\x7d".toList "q = ".toList
        = scanAndParse "q = \x7b\"z\":3\x7d".toList 4 :=
  ⟨(c8_scan_starts_at_brace "m = [1,2];".toList "m = ".toList 0 rfl).1 rfl,
   (c8_scan_starts_at_brace "q = \x7b\"z\":3\x7d".toList "q = ".toList 0 rfl).2 4 rfl⟩

/-! ### C1 — balanced-scan correctness -/

theorem depthSum_zero (l : List Char) : depthSum l 0 = 0 := by
  simp [depthSum]

theorem depthSum_cons (c : Char) (l : List Char) (k : Nat) :
    depthSum (c :: l) (k + 1) = depthDelta c + depthSum l k := by
  simp [depthSum, List.take_succ_cons]


/-- If the running depth stays positive strictly inside `rest` and returns to
zero exactly after all of `rest`, the scan stops at the last character of
`rest`, whatever trails it. -/
theorem scanGo (rest : List Char) : ∀ (trail : List Char) (pos : Nat) (d : Int),
    rest ≠ [] →
    (∀ k, k < rest.length → 0 < d + depthSum rest k) →
    d + depthSum rest rest.length = 0 →
    scanDepth (rest ++ trail) pos d = some (pos + rest.length - 1) := by
  induction rest with
  | nil => intro trail pos d h0 _ _; exact absurd rfl h0
  | cons c rs ih =>
    intro trail pos d _ hpos hend
    have hd0 : 0 < d := by
      have h := hpos 0 (by simp)
      rw [depthSum_zero] at h
      omega
    rw [show (c :: rs).length = rs.length + 1 from rfl, depthSum_cons] at hend
    simp only [List.cons_append, scanDepth, List.append_eq]
    by_cases hc1 : c = lbrace ∨ c = lbrack
    · rw [if_pos hc1]
      have hdc : depthDelta c = 1 := by simp [depthDelta, hc1]
      rw [hdc] at hend
      by_cases hrs : rs = []
      · exfalso
        subst hrs
        simp [depthSum] at hend
        omega
      · have hA : ∀ k, k < rs.length → 0 < (d + 1) + depthSum rs k := by
          intro k hk
          have h := hpos (k + 1) (by simpa using Nat.succ_lt_succ hk)
          rw [depthSum_cons, hdc] at h
          omega
        have hres := ih trail (pos + 1) (d + 1) hrs hA (by omega)
        rw [hres]
        congr 1
        simp only [List.length_cons]
        omega
    · rw [if_neg hc1]
      by_cases hc2 : c = rbrace ∨ c = rbrack
      · rw [if_pos hc2]
        have hdc : depthDelta c = -1 := by simp [depthDelta, hc1, hc2]
        rw [hdc] at hend
        by_cases hrs : rs = []
        · subst hrs
          simp [depthSum] at hend
          rw [if_pos (by omega : d - 1 = 0)]
          simp
        · have hrlen : 0 < rs.length := List.length_pos.mpr hrs
          have h1 := hpos 1 (by simp; omega)
          rw [show (1 : Nat) = 0 + 1 from rfl, depthSum_cons, hdc, depthSum_zero] at h1
          rw [if_neg (by omega : ¬ (d - 1 = 0))]
          have hA : ∀ k, k < rs.length → 0 < (d - 1) + depthSum rs k := by
            intro k hk
            have h := hpos (k + 1) (by simpa using Nat.succ_lt_succ hk)
            rw [depthSum_cons, hdc] at h
            omega
          have hres := ih trail (pos + 1) (d - 1) hrs hA (by omega)
          rw [hres]
          congr 1
          simp only [List.length_cons]
          omega
      · rw [if_neg hc2]
        have hdc : depthDelta c = 0 := by simp [depthDelta, hc1, hc2]
        rw [hdc] at hend
        by_cases hrs : rs = []
        · exfalso
          subst hrs
          simp [depthSum] at hend
          omega
        · have hA : ∀ k, k < rs.length → 0 < d + depthSum rs k := by
            intro k hk
            have h := hpos (k + 1) (by simpa using Nat.succ_lt_succ hk)
            rw [depthSum_cons, hdc] at h
            omega
          have hres := ih trail (pos + 1) d hrs hA (by omega)
          rw [hres]
          congr 1
          simp only [List.length_cons]
          omega

/-- [C1] counterexample.  `"v = \x7b\"a\":\"\x7d\"\x7d"` contains the marker
`"v = "` followed by the valid JSON value `\x7b"a":"\x7d"\x7d` (second
conjunct: it parses), whose string literal contains a brace character; the
claim says extraction returns exactly that value's span parsed as JSON, but
`_extract_json_object` counts the brace inside the string, slices the
ill-formed prefix `\x7b"a":"\x7d` and returns `None`. -/
theorem c1_string_brace_counterexample :
    extract_json_object "v = \x7b\"a\":\"\x7d\"\x7d".toList "v = ".toList = Option.none ∧
      parseJson "\x7b\"a\":\"\x7d\"\x7d".toList
        = some (PyVal.dict [("a", PyVal.str "\x7d")]) :=
  ⟨rfl, rfl⟩

/-- [C1] (amended) Balanced-scan correctness holds for values whose span
keeps the *combined* depth counter positive strictly inside the span and
returns it to zero exactly at the span's end — true of any JSON value with
nested braces/brackets whose string literals contain no unbalancing brace
characters, but not of arbitrary strings containing braces.  Under that
condition, if the marker occurs (first hit `i`), the first `\x7b` after it is
at `j`, and the text from `j` is the value span `body` followed by arbitrary
trailing script text, then `_extract_json_object` returns exactly `body`
parsed as JSON, ignoring the trailing text. -/
theorem c1_balanced_span (text marker body trail : List Char) (v : PyVal) (i j : Nat)
    (h1 : findSub text marker = some i)
    (h2 : findCharFrom text lbrace (i + marker.length) = some j)
    (h3 : text.drop j = body ++ trail)
    (h4 : 1 < body.length)
    (h5 : ∀ m, m < body.length → 0 < m → 0 < depthSum body m)
    (h6 : depthSum body body.length = 0)
    (h7 : body.head? = some lbrace)
    (h8 : parseJson body = some v) :
    extract_json_object text marker = some v := by
  obtain ⟨b0, brest, rfl⟩ : ∃ b0 brest, body = b0 :: brest := by
    cases body with
    | nil => simp at h4
    | cons b0 brest => exact ⟨b0, brest, rfl⟩
  have hb0 : b0 = lbrace := by simpa using h7
  subst hb0
  have hbrest : brest ≠ [] := by
    intro hnil
    subst hnil
    simp at h4
  have hscan : scanDepth ((lbrace :: brest) ++ trail) j 0
      = some (j + brest.length) := by
    simp only [List.cons_append, scanDepth, List.append_eq]
    rw [if_pos (Or.inl trivial)]
    have hA : ∀ k, k < brest.length → 0 < (0 + 1) + depthSum brest k := by
      intro k hk
      have h := h5 (k + 1) (by simpa using Nat.succ_lt_succ hk) (Nat.succ_pos k)
      rw [depthSum_cons] at h
      have hd : depthDelta lbrace = 1 := by simp [depthDelta]
      rw [hd] at h
      omega
    have hB : (0 + 1 : Int) + depthSum brest brest.length = 0 := by
      rw [show (lbrace :: brest).length = brest.length + 1 from rfl, depthSum_cons] at h6
      have hd : depthDelta lbrace = 1 := by simp [depthDelta]
      rw [hd] at h6
      omega
    have hres := scanGo brest trail (j + 1) (0 + 1) hbrest hA hB
    rw [hres]
    congr 1
    have : 0 < brest.length := List.length_pos.mpr hbrest
    omega
  simp only [extract_json_object, h1, h2, scanAndParse, h3, hscan]
  have htake : ((lbrace :: brest) ++ trail).take (j + brest.length + 1 - j)
      = lbrace :: brest := by
    have hlen : j + brest.length + 1 - j = (lbrace :: brest).length := by
      simp only [List.length_cons]
      omega
    rw [hlen, List.take_left]
  rw [htake, h8]

/-- [C1] witness for `c1_balanced_span`: the spec's concrete scenario with a
trailing `";rest"`, hypotheses discharged by computation. -/
theorem c1_balanced_span_witness :
    parseJson bodyW = some valW ∧ extract_json_object textW markerW = some valW :=
  ⟨rfl,
   c1_balanced_span textW markerW bodyW trailW valW 0 20 rfl rfl rfl (by decide)
     (by decide) (by decide) rfl rfl⟩

/-! ### C5 — marker priority -/

theorem tryMarkers_eq_findSome (content : List Char) (pats : List (List Char)) :
    tryMarkers content pats = pats.findSome? (fun m => extract_json_object content m) := by
  induction pats with
  | nil => rfl
  | cons m ms ih =>
    simp only [tryMarkers, List.findSome?]
    cases extract_json_object content m with
    | none => simpa using ih
    | some v => rfl

/-- [C5] counterexample.  Two scripts: the first (in document order) matches
only the later-listed marker `"B = "`, the second matches the earliest-listed
marker `"A = "` (second conjunct).  The claim says the extractor returns the
document located by the earliest-listed marker — `{"x": 1}` — ignoring
later-listed markers; the code instead returns the first script's document
`{"x": 2}`, because scripts are the outer loop and markers the inner one. -/
theorem c5_script_order_counterexample :
    find_json_in_scripts docRootC5 ["A = ".toList, "B = ".toList]
        = some (PyVal.dict [("x", PyVal.int 2)]) ∧
      extract_json_object (scriptContent scriptA) "A = ".toList
        = some (PyVal.dict [("x", PyVal.int 1)]) ∧
      PyVal.dict [("x", PyVal.int 2)] ≠ PyVal.dict [("x", PyVal.int 1)] :=
  ⟨rfl, rfl, by
    intro h
    injection h with h1
    injection h1 with h2 _
    injection h2 with _ h3
    injection h3 with h4
    omega⟩

/-- [C5] (amended) The extractor's search is script-major: scripts are
enumerated in document order and, *within each script*, the markers are tried
in caller-supplied priority order; the first successful parse in that order
is returned, so the marker priority decides only among markers of the same
script.  Stated as equality with `scriptMajorSearch`, the search written
directly from that description over the per-script contents. -/
theorem c5_marker_priority_script_major (root : Node) (pats : List (List Char)) :
    find_json_in_scripts root pats
      = scriptMajorSearch ((find_all (some "script") root).map scriptContent) pats := by
  unfold find_json_in_scripts scriptMajorSearch
  induction find_all (some "script") root with
  | nil => rfl
  | cons s rest ih =>
    simp only [scriptsLoop, List.map, List.findSome?]
    by_cases hc : scriptContent s = []
    · rw [if_pos hc]
      have : (scriptContent s).isEmpty = true := by
        rw [hc]; rfl
      rw [this]
      simpa using ih
    · rw [if_neg hc]
      have : (scriptContent s).isEmpty = false := by
        cases h : scriptContent s with
        | nil => exact absurd h hc
        | cons a l => rfl
      rw [this]
      rw [tryMarkers_eq_findSome]
      cases (pats.findSome? fun m => extract_json_object (scriptContent s) m) with
      | none => simpa using ih
      | some v => rfl

/-! ### C9 — `get_text` with `strip` -/

theorem stripL_eq_rdrop (l : List Char) :
    stripL l = (l.dropWhile isPySpace).rdropWhile isPySpace := rfl

theorem not_space_of_dropWhile_cons {x : Char} {xs : List Char}
    (h : List.dropWhile isPySpace (x :: xs) = x :: xs) : isPySpace x = false := by
  cases hp : isPySpace x with
  | false => rfl
  | true =>
    exfalso
    rw [List.dropWhile_cons, if_pos hp] at h
    have hle := (List.dropWhile_suffix (l := xs) isPySpace).length_le
    rw [h] at hle
    simp at hle

theorem stripL_eq_self_iff (l : List Char) :
    stripL l = l ↔ (l.dropWhile isPySpace = l ∧ l.rdropWhile isPySpace = l) := by
  constructor
  · intro h
    rw [stripL_eq_rdrop] at h
    have h1 : (l.dropWhile isPySpace).length ≤ l.length :=
      (List.dropWhile_suffix isPySpace).length_le
    have h2 : ((l.dropWhile isPySpace).rdropWhile isPySpace).length
        ≤ (l.dropWhile isPySpace).length :=
      (List.rdropWhile_prefix isPySpace _).length_le
    rw [h] at h2
    have hdrop : l.dropWhile isPySpace = l :=
      (List.dropWhile_suffix isPySpace).eq_of_length (le_antisymm h1 h2)
    refine ⟨hdrop, ?_⟩
    rw [hdrop] at h
    exact h
  · intro ⟨h1, h2⟩
    rw [stripL_eq_rdrop, h1, h2]

theorem stripL_append {a b : List Char} (ha : stripL a = a) (hb : stripL b = b) :
    stripL (a ++ b) = a ++ b := by
  rw [stripL_eq_self_iff] at ha hb ⊢
  constructor
  · cases a with
    | nil => simpa using hb.1
    | cons x xs =>
      have hx := not_space_of_dropWhile_cons ha.1
      rw [List.cons_append, List.dropWhile_cons, hx]
      simp
  · by_cases hbn : b = []
    · subst hbn
      simpa using ha.2
    · have hbne : b ≠ [] := hbn
      have hbr : b.reverse.dropWhile isPySpace = b.reverse := by
        have := hb.2
        rw [List.rdropWhile] at this
        have h' := congrArg List.reverse this
        rwa [List.reverse_reverse] at h'
      obtain ⟨z, zs, hz⟩ : ∃ z zs, b.reverse = z :: zs := by
        cases hr : b.reverse with
        | nil =>
          exfalso
          have := congrArg List.reverse hr
          rw [List.reverse_reverse] at this
          exact hbne (by simpa using this)
        | cons z zs => exact ⟨z, zs, rfl⟩
      rw [hz] at hbr
      have hzp := not_space_of_dropWhile_cons hbr
      rw [List.rdropWhile, List.reverse_append, hz, List.cons_append,
        List.dropWhile_cons, hzp]
      simp only [Bool.false_eq_true, if_false]
      rw [← List.cons_append, ← hz, ← List.reverse_append, List.reverse_reverse]

mutual

theorem get_text_clean_node : ∀ (n : Node), runsClean n = true →
    get_text true n = get_text false n ∧
      stripL (get_text false n) = get_text false n
  | Node.text s, h => by
    have hs : stripL s = s := by
      simpa [runsClean] using h
    simp [get_text, hs]
  | Node.elem nm a cs, h => by
    have hl := get_text_clean_list cs (by simpa [runsClean] using h)
    constructor
    · show stripL (get_text_children true cs) = get_text_children false cs
      rw [hl.1, hl.2]
    · show stripL (get_text_children false cs) = get_text_children false cs
      exact hl.2

theorem get_text_clean_list : ∀ (cs : List Node), runsCleanList cs = true →
    get_text_children true cs = get_text_children false cs ∧
      stripL (get_text_children false cs) = get_text_children false cs
  | [], _ => by
    constructor
    · rfl
    · rfl
  | c :: cs, h => by
    have hh : runsClean c = true ∧ runsCleanList cs = true := by
      simpa [runsCleanList, Bool.and_eq_true] using h
    have h1 := get_text_clean_node c hh.1
    have h2 := get_text_clean_list cs hh.2
    simp only [get_text_children]
    exact ⟨by rw [h1.1, h2.1], by rw [stripL_append h1.2 h2.2]⟩

end

/-- [C9] counterexample.  On `<a>hello <b>world</b></a>` — the tree
`Node.elem "a"` with text run `"hello "` followed by `<b>world</b>` —
`get_text` with `strip` yields `"helloworld"`, while trimming the plain
concatenation `"hello world"` keeps the interior space: the claim's
trimmed-concatenation semantics does not hold, because `get_text` strips
every text run individually. -/
theorem c9_strip_counterexample :
    get_text true nodeC9 = "helloworld".toList ∧
      stripL (get_text false nodeC9) = "hello world".toList ∧
      get_text true nodeC9 ≠ stripL (get_text false nodeC9) :=
  ⟨rfl, rfl, by decide⟩

/-- [C9] (amended) `get_text(strip=True)` strips each text run individually
as well as every intermediate and the final concatenation, so it matches
trimmed-concatenation semantics exactly when no descendant text run carries
leading or trailing whitespace (`runsClean`): under that proviso the stripped
output equals trimming the plain unstripped concatenation. -/
theorem c9_strip_trimmed_concat (n : Node) (h : runsClean n = true) :
    get_text true n = stripL (get_text false n) := by
  obtain ⟨h1, h2⟩ := get_text_clean_node n h
  rw [h1, h2]

/-- [C9] witness for `c9_strip_trimmed_concat` on a whitespace-free tree. -/
theorem c9_strip_trimmed_concat_witness :
    runsClean (Node.elem "a" [] [Node.text "hi".toList,
        Node.elem "b" [] [Node.text "world".toList]]) = true ∧
      get_text true (Node.elem "a" [] [Node.text "hi".toList,
        Node.elem "b" [] [Node.text "world".toList]])
      = stripL (get_text false (Node.elem "a" [] [Node.text "hi".toList,
        Node.elem "b" [] [Node.text "world".toList]])) :=
  ⟨rfl, c9_strip_trimmed_concat _ rfl⟩

/-! ### C7 — malformed-markup tolerance in `handle_endtag` -/

theorem findAnc_none (root : Node) (t : String) (rpath : List Nat)
    (h : ∀ tl ∈ rpath.tails, nameAt root tl.reverse ≠ some t) :
    findAnc root t rpath = Option.none := by
  induction rpath with
  | nil =>
    have h0 := h [] (by simp)
    simp only [findAnc]
    rw [if_neg (by simpa using h0)]
  | cons i rest ih =>
    have h0 := h (i :: rest) (by simp)
    simp only [findAnc]
    rw [if_neg h0]
    exact ih (fun tl htl => h tl (by simp [List.tails] at htl ⊢; right; exact htl))

theorem findAnc_found (root : Node) (t : String) :
    ∀ (rpre : List Nat) (rpath : List Nat) (i : Nat) (rest : List Nat),
    rpath = rpre ++ i :: rest →
    nameAt root ((i :: rest).reverse) = some t →
    (∀ k, k < rpre.length → nameAt root ((rpath.drop k).reverse) ≠ some t) →
    findAnc root t rpath = some (i :: rest) := by
  intro rpre
  induction rpre with
  | nil =>
    intro rpath i rest heq hname _
    subst heq
    simp only [List.nil_append, findAnc]
    rw [if_pos hname]
  | cons a as ih =>
    intro rpath i rest heq hname hmiss
    subst heq
    simp only [List.cons_append, findAnc]
    rw [if_neg (by simpa using hmiss 0 (by simp))]
    exact ih (as ++ i :: rest) i rest rfl hname
      (fun k hk => by simpa using hmiss (k + 1) (by simpa using Nat.succ_lt_succ hk))

/-- [C7] Tree construction is a total function of the event stream
(`buildTree`), and `handle_endtag` recovers silently: (first part) a close
tag whose name matches no ancestor (inclusive, the root included) of the
current insertion point resets the insertion point to the document root
without touching the tree, so subsequent non-empty character data attaches as
a new child of the root; (second part) a close tag matching a nearest
ancestor (the ancestor chain being the suffixes of the reversed current path,
none strictly above the match point matching) makes that ancestor's parent
the new insertion point. -/
theorem c7_endtag_recovery (st : BState) (t : String)
    (nm : String) (ats : List (String × String)) (cs : List Node)
    (hroot : st.root = Node.elem nm ats cs) :
    ((∀ tl ∈ st.rpath.tails, nameAt st.root tl.reverse ≠ some t) →
      (hstep st (Ev.endTag t)).rpath = [] ∧
      (hstep st (Ev.endTag t)).root = st.root ∧
      (∀ s : List Char, s ≠ [] →
        (hstep (hstep st (Ev.endTag t)) (Ev.charData s)).root
          = Node.elem nm ats (cs ++ [Node.text s]))) ∧
    (∀ rpre i rest, st.rpath = rpre ++ i :: rest →
      nameAt st.root ((i :: rest).reverse) = some t →
      (∀ k, k < rpre.length → nameAt st.root ((st.rpath.drop k).reverse) ≠ some t) →
      (hstep st (Ev.endTag t)).rpath = rest) := by
  constructor
  · intro hnone
    have hfind := findAnc_none st.root t st.rpath hnone
    have hstep1 : hstep st (Ev.endTag t) = ⟨st.root, []⟩ := by
      simp [hstep, hfind]
    refine ⟨by rw [hstep1], by rw [hstep1], ?_⟩
    intro s hs
    rw [hstep1]
    simp only [hstep]
    rw [if_neg hs]
    simp [List.reverse_nil, hroot, appendAt]
  · intro rpre i rest heq hname hmiss
    have hfind := findAnc_found st.root t rpre st.rpath i rest heq hname hmiss
    simp [hstep, hfind]

/-- [C7] witness for `c7_endtag_recovery` on the builder state after
`<html><body><p>`: closing the unmatched `</div>` resets to the root and a
following text run becomes a child of `[document]`; closing `</body>` makes
`<html>` (reversed path `[0]`) the insertion point. -/
theorem c7_endtag_recovery_witness :
    (hstep stC7 (Ev.endTag "div")).rpath = [] ∧
      (hstep (hstep stC7 (Ev.endTag "div")) (Ev.charData ['x'])).root
        = Node.elem "[document]" []
            ([Node.elem "html" [] [Node.elem "body" [] [Node.elem "p" [] []]]]
              ++ [Node.text ['x']]) ∧
      (hstep stC7 (Ev.endTag "body")).rpath = [0] :=
  ⟨((c7_endtag_recovery stC7 "div" "[document]" []
        [Node.elem "html" [] [Node.elem "body" [] [Node.elem "p" [] []]]] rfl).1
      (by decide)).1,
   ((c7_endtag_recovery stC7 "div" "[document]" []
        [Node.elem "html" [] [Node.elem "body" [] [Node.elem "p" [] []]]] rfl).1
      (by decide)).2.2 ['x'] (by decide),
   (c7_endtag_recovery stC7 "body" "[document]" []
        [Node.elem "html" [] [Node.elem "body" [] [Node.elem "p" [] []]]] rfl).2
     [0] 0 [0] rfl (by decide) (by decide)⟩

/-! ### C10 — `_find_value` and JSON null -/

/-- [C10] `_find_value` never surfaces the JSON null value.  Since Python's
`None` both *is* JSON null and *is* the absent marker, a key bound to null is
returned as `PyVal.none` — indistinguishable at the caller from the key not
being present (first part); and during the sibling recursion a child whose
search produced `None` (in particular one holding the key bound to null) does
not stop the search, which proceeds over the later siblings exactly as if the
child were removed (second part). -/
theorem c10_null_indistinguishable :
    (∀ (l : List (String × PyVal)) (key : String),
      pyLookup l key = some PyVal.none →
      find_value (PyVal.dict l) key = PyVal.none) ∧
    (∀ (key s : String) (v : PyVal) (rest : List (String × PyVal)),
      pyLookup ((s, v) :: rest) key = Option.none →
      find_value v key = PyVal.none →
      find_value (PyVal.dict ((s, v) :: rest)) key
        = find_value (PyVal.dict rest) key) := by
  constructor
  · intro l key h
    simp [find_value, h]
  · intro key s v rest h1 h2
    have hs : ¬ (s = key) := by
      intro hk
      simp [pyLookup, hk] at h1
    have hrest : pyLookup rest key = Option.none := by
      simpa [pyLookup, hs] using h1
    simp [find_value, h1, hrest, findValueEntries, h2]

/-- [C10] witness for `c10_null_indistinguishable`: a top-level null binding
reported as absent, and a nested null binding skipped in favour of a later
sibling. -/
theorem c10_null_indistinguishable_witness :
    find_value (PyVal.dict [("k", PyVal.none)]) "k" = PyVal.none ∧
      find_value (PyVal.dict [("o", PyVal.dict [("k", PyVal.none)]),
          ("o2", PyVal.dict [("k", PyVal.int 5)])]) "k"
        = find_value (PyVal.dict [("o2", PyVal.dict [("k", PyVal.int 5)])]) "k" :=
  ⟨c10_null_indistinguishable.1 [("k", PyVal.none)] "k" rfl,
   c10_null_indistinguishable.2 "k" "o" (PyVal.dict [("k", PyVal.none)])
     [("o2", PyVal.dict [("k", PyVal.int 5)])] rfl rfl⟩

/-! ### C6 — empty-page tolerance is broken by the consumer's `break` -/

/-- [C6] The claim (and the spec) say a continuation response with no
`continuationItems` anywhere contributes nothing, raises nothing, and the
previously queued tokens are still processed.  The generator
`_iterate_continuations` is indeed written that way (`yield None` then
`continue`), but `scrape`'s consumer loop breaks on the `None` sentinel, so
the whole crawl stops and the queued tokens are abandoned.  Concretely: the
initial grid holds video `a` and tokens `t1`, `t2`; fetching `t1` yields a
page with no `continuationItems` and fetching `t2` would yield video `b`.
The actual `scrape` returns only `[a]` (first conjunct), while draining the
generator loop itself past the sentinel — the claimed behaviour — processes
`t2` and yields `[a, b]` (second conjunct). -/
theorem c6_empty_page_break_bug :
    scrapeM (fun t => if t = "t2" then mkPage [vidItem "b"] else PyVal.dict []) 6
        Option.none (mkInitData [vidItem "a", contItem "t1", contItem "t2"]) cfg0
      = some [plainEntry "a"] ∧
      iterGen (fun t => if t = "t2" then mkPage [vidItem "b"] else PyVal.dict [])
          Option.none 6 ["t1", "t2"] ["a"] [plainEntry "a"]
        = some ([("t1", 1), ("t2", 1)], [plainEntry "a", plainEntry "b"]) :=
  ⟨rfl, rfl⟩

/-! ### C2 — uniqueness of video ids -/

theorem addVideos_invariant (lim : Option Nat) :
    ∀ (vs : List VideoEntry) (seen : List String) (coll : List VideoEntry)
      (seen' : List String) (coll' : List VideoEntry) (st : Bool),
    addVideos lim vs seen coll = (seen', coll', st) →
    (coll.map VideoEntry.video_id).Nodup →
    (∀ e ∈ coll, e.video_id ∈ seen) →
    ((coll'.map VideoEntry.video_id).Nodup ∧ (∀ e ∈ coll', e.video_id ∈ seen') ∧
      ∀ s ∈ seen, s ∈ seen') := by
  intro vs
  induction vs with
  | nil =>
    intro seen coll seen' coll' st h hnd hsub
    simp only [addVideos] at h
    injection h with h1 h2
    injection h2 with h2 h3
    subst h1; subst h2
    exact ⟨hnd, hsub, fun s hs => hs⟩
  | cons v vs ih =>
    intro seen coll seen' coll' st h hnd hsub
    simp only [addVideos] at h
    by_cases hmem : v.video_id ∈ seen
    · rw [if_pos hmem] at h
      exact ih seen coll seen' coll' st h hnd hsub
    · rw [if_neg hmem] at h
      have hnd' : ((coll ++ [v]).map VideoEntry.video_id).Nodup := by
        rw [List.map_append]
        rw [List.nodup_append]
        refine ⟨hnd, by simp, ?_⟩
        intro x hx hxv
        simp only [List.map_cons, List.map_nil, List.mem_singleton] at hxv
        obtain ⟨e, he, hev⟩ := List.mem_map.mp hx
        apply hmem
        rw [← hxv, ← hev]
        exact hsub e he
      have hsub' : ∀ e ∈ coll ++ [v], e.video_id ∈ v.video_id :: seen := by
        intro e he
        rcases List.mem_append.mp he with h1 | h1
        · exact List.mem_cons_of_mem _ (hsub e h1)
        · simp only [List.mem_singleton] at h1
          subst h1
          exact List.mem_cons_self _ _
      by_cases hlimit : limitHit lim (coll ++ [v]).length = true
      · rw [if_pos hlimit] at h
        injection h with h1 h2
        injection h2 with h2 h3
        subst h1; subst h2
        exact ⟨hnd', hsub', fun s hs => List.mem_cons_of_mem _ hs⟩
      · rw [if_neg hlimit] at h
        have := ih (v.video_id :: seen) (coll ++ [v]) seen' coll' st h hnd' hsub'
        exact ⟨this.1, this.2.1,
          fun s hs => this.2.2 s (List.mem_cons_of_mem _ hs)⟩

theorem crawl_nodup (fetchC : String → PyVal) (lim : Option Nat) :
    ∀ (fuel : Nat) (tokens seen : List String) (coll : List VideoEntry)
      (tr : List (String × Nat)) (res : List VideoEntry),
    crawl fetchC lim fuel tokens seen coll = some (tr, res) →
    (coll.map VideoEntry.video_id).Nodup →
    (∀ e ∈ coll, e.video_id ∈ seen) →
    (res.map VideoEntry.video_id).Nodup := by
  intro fuel
  induction fuel with
  | zero =>
    intro tokens seen coll tr res h hnd hsub
    cases tokens with
    | nil =>
      simp only [crawl] at h
      injection h with h1
      injection h1 with _ h2
      subst h2
      exact hnd
    | cons t rest => simp [crawl] at h
  | succ fuel ih =>
    intro tokens seen coll tr res h hnd hsub
    cases tokens with
    | nil =>
      simp only [crawl] at h
      injection h with h1
      injection h1 with _ h2
      subst h2
      exact hnd
    | cons t rest =>
      simp only [crawl] at h
      cases hfv : asList (find_value (fetchC t) "continuationItems") with
      | none =>
        rw [hfv] at h
        simp only at h
        injection h with h1
        injection h1 with _ h2
        subst h2
        exact hnd
      | some items =>
        rw [hfv] at h
        simp only at h
        rcases hadd : addVideos lim (extract_videos_from_grid items).1 seen coll
          with ⟨seen', coll', st⟩
        rw [hadd] at h
        cases st with
        | true =>
          simp only at h
          injection h with h1
          injection h1 with _ h2
          subst h2
          exact (addVideos_invariant lim _ seen coll seen' coll' true hadd hnd hsub).1
        | false =>
          simp only [Option.map_eq_some'] at h
          obtain ⟨⟨tr0, res0⟩, hc, heq⟩ := h
          injection heq with _ h2
          subst h2
          have hinv := addVideos_invariant lim _ seen coll seen' coll' false hadd hnd hsub
          exact ih (rest ++ (extract_videos_from_grid items).2) seen' coll' tr0 res0
            hc hinv.1 hinv.2.1

theorem addVideos_none_not_stopped :
    ∀ (vs : List VideoEntry) (seen : List String) (coll : List VideoEntry)
      (seen' : List String) (coll' : List VideoEntry) (st : Bool),
    addVideos Option.none vs seen coll = (seen', coll', st) → st = false := by
  intro vs
  induction vs with
  | nil =>
    intro seen coll seen' coll' st h
    simp only [addVideos] at h
    injection h with _ h2
    injection h2 with _ h3
    exact h3.symm
  | cons v vs ih =>
    intro seen coll seen' coll' st h
    simp only [addVideos] at h
    by_cases hmem : v.video_id ∈ seen
    · rw [if_pos hmem] at h
      exact ih seen coll seen' coll' st h
    · rw [if_neg hmem, if_neg (by simp [limitHit])] at h
      exact ih _ _ _ _ _ h

theorem firstOccurrences_congr (seen1 seen2 : List String)
    (hiff : ∀ s, s ∈ seen1 ↔ s ∈ seen2) :
    ∀ l : List VideoEntry, firstOccurrences seen1 l = firstOccurrences seen2 l := by
  intro l
  induction l generalizing seen1 seen2 with
  | nil => rfl
  | cons v vs ih =>
    simp only [firstOccurrences]
    by_cases hmem : v.video_id ∈ seen1
    · rw [if_pos hmem, if_pos ((hiff _).mp hmem)]
      exact ih seen1 seen2 hiff
    · rw [if_neg hmem, if_neg (fun hc => hmem ((hiff _).mpr hc))]
      rw [ih (v.video_id :: seen1) (v.video_id :: seen2)
        (fun s => by simp only [List.mem_cons]; rw [hiff s])]

theorem firstOccurrences_append (seen : List String) (a b : List VideoEntry) :
    firstOccurrences seen (a ++ b)
      = firstOccurrences seen a
        ++ firstOccurrences ((firstOccurrences seen a).map VideoEntry.video_id ++ seen) b := by
  induction a generalizing seen with
  | nil => simp [firstOccurrences]
  | cons v a ih =>
    simp only [List.cons_append, firstOccurrences, List.append_eq]
    by_cases hmem : v.video_id ∈ seen
    · rw [if_pos hmem, if_pos hmem]
      exact ih seen
    · rw [if_neg hmem, if_neg hmem]
      rw [ih (v.video_id :: seen)]
      simp only [List.cons_append, List.map_cons]
      rw [firstOccurrences_congr
        ((firstOccurrences (v.video_id :: seen) a).map VideoEntry.video_id
          ++ v.video_id :: seen)
        (v.video_id :: ((firstOccurrences (v.video_id :: seen) a).map VideoEntry.video_id
          ++ seen))
        (fun s => by simp only [List.mem_append, List.mem_cons]; tauto) b]

theorem firstOccurrences_of_nodup (l : List VideoEntry) :
    ∀ seen : List String,
    (∀ e ∈ l, e.video_id ∉ seen) →
    (l.map VideoEntry.video_id).Nodup →
    firstOccurrences seen l = l := by
  induction l with
  | nil => intro seen _ _; rfl
  | cons v vs ih =>
    intro seen hout hnd
    simp only [List.map_cons, List.nodup_cons] at hnd
    simp only [firstOccurrences]
    rw [if_neg (hout v (by simp))]
    rw [ih (v.video_id :: seen) ?_ hnd.2]
    intro e he
    simp only [List.mem_cons]
    intro hc
    rcases hc with hc | hc
    · exact hnd.1 (hc ▸ List.mem_map_of_mem VideoEntry.video_id he)
    · exact hout e (List.mem_cons_of_mem _ he) hc

theorem addVideos_first (lim : Option Nat) :
    ∀ (vs : List VideoEntry) (seen : List String) (coll : List VideoEntry)
      (seen' : List String) (coll' : List VideoEntry),
    addVideos lim vs seen coll = (seen', coll', false) →
    (∀ s, s ∈ seen ↔ ∃ e ∈ coll, e.video_id = s) →
    (coll' = coll ++ firstOccurrences seen vs ∧
      (∀ s, s ∈ seen' ↔ ∃ e ∈ coll', e.video_id = s)) := by
  intro vs
  induction vs with
  | nil =>
    intro seen coll seen' coll' h hseen
    simp only [addVideos] at h
    injection h with h1 h2
    injection h2 with h2 _
    subst h1; subst h2
    exact ⟨by simp [firstOccurrences], hseen⟩
  | cons v vs ih =>
    intro seen coll seen' coll' h hseen
    simp only [addVideos] at h
    simp only [firstOccurrences]
    by_cases hmem : v.video_id ∈ seen
    · rw [if_pos hmem] at h
      rw [if_pos hmem]
      exact ih seen coll seen' coll' h hseen
    · rw [if_neg hmem] at h
      rw [if_neg hmem]
      by_cases hlimit : limitHit lim (coll ++ [v]).length = true
      · rw [if_pos hlimit] at h
        injection h with _ h2
        injection h2 with _ h3
        cases h3
      · rw [if_neg hlimit] at h
        have hseen2 : ∀ s, s ∈ v.video_id :: seen ↔ ∃ e ∈ coll ++ [v], e.video_id = s := by
          intro s
          rw [List.mem_cons, hseen s]
          constructor
          · intro hc
            rcases hc with hc | ⟨e, he, hes⟩
            · exact ⟨v, by simp, hc.symm⟩
            · exact ⟨e, by simp [he], hes⟩
          · rintro ⟨e, he, hes⟩
            rcases List.mem_append.mp he with he | he
            · exact Or.inr ⟨e, he, hes⟩
            · rw [List.mem_singleton] at he
              subst he
              exact Or.inl hes.symm
        obtain ⟨h1, h2⟩ := ih (v.video_id :: seen) (coll ++ [v]) seen' coll' h hseen2
        refine ⟨?_, h2⟩
        rw [h1, List.append_assoc]
        rfl

theorem addVideos_first_prefix (lim : Option Nat) :
    ∀ (vs : List VideoEntry) (seen : List String) (coll : List VideoEntry)
      (seen' : List String) (coll' : List VideoEntry),
    addVideos lim vs seen coll = (seen', coll', true) →
    coll' <+: coll ++ firstOccurrences seen vs := by
  intro vs
  induction vs with
  | nil =>
    intro seen coll seen' coll' h
    simp only [addVideos] at h
    injection h with _ h2
    injection h2 with _ h3
    cases h3
  | cons v vs ih =>
    intro seen coll seen' coll' h
    simp only [addVideos] at h
    simp only [firstOccurrences]
    by_cases hmem : v.video_id ∈ seen
    · rw [if_pos hmem] at h
      rw [if_pos hmem]
      exact ih seen coll seen' coll' h
    · rw [if_neg hmem] at h
      rw [if_neg hmem]
      by_cases hlimit : limitHit lim (coll ++ [v]).length = true
      · rw [if_pos hlimit] at h
        injection h with _ h2
        injection h2 with h2 _
        subst h2
        have hform : coll ++ v :: firstOccurrences (v.video_id :: seen) vs
            = (coll ++ [v]) ++ firstOccurrences (v.video_id :: seen) vs := by
          simp
        rw [hform]
        exact List.prefix_append _ _
      · rw [if_neg hlimit] at h
        have := ih (v.video_id :: seen) (coll ++ [v]) seen' coll' h
        simpa using this

theorem crawl_crawlS (fetchC : String → PyVal) (lim : Option Nat) :
    ∀ (fuel : Nat) (tokens seen : List String) (coll : List VideoEntry)
      (tr : List (String × Nat)) (res : List VideoEntry),
    crawl fetchC lim fuel tokens seen coll = some (tr, res) →
    ∃ stream, crawlS fetchC lim fuel tokens seen coll = some (stream, res) := by
  intro fuel
  induction fuel with
  | zero =>
    intro tokens seen coll tr res h
    cases tokens with
    | nil =>
      simp only [crawl] at h
      injection h with h1
      injection h1 with _ h2
      subst h2
      exact ⟨[], rfl⟩
    | cons t rest => simp [crawl] at h
  | succ fuel ih =>
    intro tokens seen coll tr res h
    cases tokens with
    | nil =>
      simp only [crawl] at h
      injection h with h1
      injection h1 with _ h2
      subst h2
      exact ⟨[], rfl⟩
    | cons t rest =>
      simp only [crawl] at h
      cases hfv : asList (find_value (fetchC t) "continuationItems") with
      | none =>
        rw [hfv] at h
        simp only at h
        injection h with h1
        injection h1 with _ h2
        subst h2
        refine ⟨[], ?_⟩
        simp [crawlS, hfv]
      | some items =>
        rw [hfv] at h
        simp only at h
        rcases hadd : addVideos lim (extract_videos_from_grid items).1 seen coll
          with ⟨seen', coll', st⟩
        rw [hadd] at h
        cases st with
        | true =>
          simp only at h
          injection h with h1
          injection h1 with _ h2
          subst h2
          refine ⟨(extract_videos_from_grid items).1, ?_⟩
          simp [crawlS, hfv, hadd]
        | false =>
          simp only [Option.map_eq_some'] at h
          obtain ⟨⟨tr0, res0⟩, hc, heq⟩ := h
          injection heq with _ h2
          subst h2
          obtain ⟨stream0, hs⟩ :=
            ih (rest ++ (extract_videos_from_grid items).2) seen' coll' tr0 res0 hc
          refine ⟨(extract_videos_from_grid items).1 ++ stream0, ?_⟩
          simp [crawlS, hfv, hadd, hs]

theorem addVideos_stopped_ge (N : Nat) :
    ∀ (vs : List VideoEntry) (seen : List String) (coll : List VideoEntry)
      (seen' : List String) (coll' : List VideoEntry),
    addVideos (some N) vs seen coll = (seen', coll', true) → N ≤ coll'.length := by
  intro vs
  induction vs with
  | nil =>
    intro seen coll seen' coll' h
    simp only [addVideos] at h
    injection h with _ h2
    injection h2 with _ h3
    cases h3
  | cons v vs ih =>
    intro seen coll seen' coll' h
    simp only [addVideos] at h
    by_cases hmem : v.video_id ∈ seen
    · rw [if_pos hmem] at h
      exact ih seen coll seen' coll' h
    · rw [if_neg hmem] at h
      by_cases hlimit : limitHit (some N) (coll ++ [v]).length = true
      · rw [if_pos hlimit] at h
        injection h with _ h2
        injection h2 with h2 _
        simp only [limitHit, decide_eq_true_eq] at hlimit
        rw [← h2]
        exact hlimit
      · rw [if_neg hlimit] at h
        exact ih _ _ _ _ h

theorem crawlS_spec (fetchC : String → PyVal) (lim : Option Nat) :
    ∀ (fuel : Nat) (tokens seen : List String) (coll : List VideoEntry)
      (stream res : List VideoEntry),
    crawlS fetchC lim fuel tokens seen coll = some (stream, res) →
    (∀ s, s ∈ seen ↔ ∃ e ∈ coll, e.video_id = s) →
    (res = coll ++ firstOccurrences seen stream ∨
      ∃ N, lim = some N ∧ N ≤ res.length ∧
        res <+: coll ++ firstOccurrences seen stream) := by
  intro fuel
  induction fuel with
  | zero =>
    intro tokens seen coll stream res h hseen
    cases tokens with
    | nil =>
      simp only [crawlS] at h
      injection h with h1
      injection h1 with h1 h2
      subst h1; subst h2
      left
      simp [firstOccurrences]
    | cons t rest => simp [crawlS] at h
  | succ fuel ih =>
    intro tokens seen coll stream res h hseen
    cases tokens with
    | nil =>
      simp only [crawlS] at h
      injection h with h1
      injection h1 with h1 h2
      subst h1; subst h2
      left
      simp [firstOccurrences]
    | cons t rest =>
      simp only [crawlS] at h
      cases hfv : asList (find_value (fetchC t) "continuationItems") with
      | none =>
        simp only [hfv] at h
        injection h with h1
        injection h1 with h1 h2
        subst h1; subst h2
        left
        simp [firstOccurrences]
      | some items =>
        simp only [hfv] at h
        rcases hadd : addVideos lim (extract_videos_from_grid items).1 seen coll
          with ⟨seen', coll', st⟩
        rw [hadd] at h
        cases st with
        | true =>
          simp only at h
          injection h with h1
          injection h1 with h1 h2
          subst h1; subst h2
          right
          obtain ⟨N, hN⟩ : ∃ N, lim = some N := by
            cases hl : lim with
            | none =>
              exfalso
              rw [hl] at hadd
              have := addVideos_none_not_stopped _ seen coll _ _ _ hadd
              simp at this
            | some N => exact ⟨N, rfl⟩
          subst hN
          exact ⟨N, rfl, addVideos_stopped_ge N _ seen coll seen' coll' hadd,
            addVideos_first_prefix (some N) _ seen coll seen' coll' hadd⟩
        | false =>
          simp only [Option.map_eq_some'] at h
          obtain ⟨⟨stream0, res0⟩, hc, heq⟩ := h
          injection heq with h1 h2
          subst h1; subst h2
          obtain ⟨hcoll', hseen'⟩ :=
            addVideos_first lim _ seen coll seen' coll' hadd hseen
          have hstream : coll ++ firstOccurrences seen
              ((extract_videos_from_grid items).1 ++ stream0)
              = coll' ++ firstOccurrences seen' stream0 := by
            rw [firstOccurrences_append, hcoll', List.append_assoc]
            congr 1
            congr 1
            apply firstOccurrences_congr
            intro s
            rw [hseen' s, hcoll']
            constructor
            · intro hs
              rcases List.mem_append.mp hs with hs | hs
              · obtain ⟨e, he, hes⟩ := List.mem_map.mp hs
                exact ⟨e, List.mem_append.mpr (Or.inr he), hes⟩
              · obtain ⟨e, he, hes⟩ := (hseen s).mp hs
                exact ⟨e, List.mem_append.mpr (Or.inl he), hes⟩
            · rintro ⟨e, he, hes⟩
              rcases List.mem_append.mp he with he | he
              · exact List.mem_append.mpr (Or.inr ((hseen s).mpr ⟨e, he, hes⟩))
              · exact List.mem_append.mpr
                  (Or.inl (hes ▸ List.mem_map_of_mem VideoEntry.video_id he))
          rcases ih (rest ++ (extract_videos_from_grid items).2) seen' coll'
              stream0 res0 hc hseen' with heq0 | ⟨N, hN, hlen, hpre⟩
          · left
            rw [hstream, heq0]
          · right
            exact ⟨N, hN, hlen, hstream ▸ hpre⟩

/-- [C2] counterexample.  The initial page's videos are taken verbatim as the
initial accumulator (`collected = videos`, `scrape` line 96) with no
per-entry dedup, so an id repeated *within the initial page* yields two
entries: the final result's ids are `["a", "a"]`, violating the claimed
uniqueness invariant "no two entries in the final returned list share a
video_id ... including within a single page". -/
theorem c2_dup_initial_counterexample :
    (scrapeM (fun _ => PyVal.none) 1 Option.none
        (mkInitData [vidItem "a", vidItem "a"]) cfg0).map
        (fun l => l.map VideoEntry.video_id) = some ["a", "a"] ∧
      ¬ (["a", "a"] : List String).Nodup :=
  ⟨rfl, by decide⟩

/-- [C2] (amended) Provided the initial page's video items are pairwise
distinct by id, the final returned list is exactly the first-occurrence
dedup of everything the crawl saw, truncated by the limit: writing `stream`
for the concatenated video entries of the continuation pages the crawl
processed (as instrumented by `crawlS`, which matches `crawl` branch for
branch), the result equals `firstOccurrences []` of the initial page's
videos followed by `stream` — each id contributes exactly one entry, the
first-seen one, at the position of its first occurrence — and in particular
no two entries share a `video_id`.  The proviso is necessary because the
initial grid's entries are appended without dedup (see the
counterexample). -/
theorem c2_first_occurrence (fetchC : String → PyVal) (fuel : Nat) (lim : Option Nat)
    (initial_data config : PyVal) (grid : List PyVal)
    (res stream collS : List VideoEntry)
    (h1 : scrapeM fetchC fuel lim initial_data config = some res)
    (h2 : extract_initial_grid initial_data = some grid)
    (h3 : (((extract_videos_from_grid grid).1).map VideoEntry.video_id).Nodup)
    (h4 : crawlS fetchC lim fuel (extract_videos_from_grid grid).2
        ((extract_videos_from_grid grid).1.map VideoEntry.video_id)
        (extract_videos_from_grid grid).1 = some (stream, collS)) :
    (res.map VideoEntry.video_id).Nodup ∧
      res = truncateLimit lim
        (firstOccurrences [] ((extract_videos_from_grid grid).1 ++ stream)) := by
  simp only [scrapeM, scrapeTr, Option.map_eq_some', Option.bind_eq_some] at h1
  obtain ⟨⟨tr, out⟩, ⟨apicfg, hapi, grid', hgrid', hmap⟩, hres⟩ := h1
  rw [h2] at hgrid'
  injection hgrid' with hgrid'
  subst hgrid'
  obtain ⟨⟨tr0, coll0⟩, hcrawl, heq⟩ := hmap
  injection heq with _ hout
  have hnd0 : (coll0.map VideoEntry.video_id).Nodup :=
    crawl_nodup fetchC lim fuel (extract_videos_from_grid grid).2
      ((extract_videos_from_grid grid).1.map VideoEntry.video_id)
      (extract_videos_from_grid grid).1 tr0 coll0 hcrawl h3
      (fun e he => List.mem_map_of_mem VideoEntry.video_id he)
  have hres' : res = truncateLimit lim coll0 := by
    rw [← hres, ← hout]
  obtain ⟨stream', hS⟩ := crawl_crawlS fetchC lim fuel (extract_videos_from_grid grid).2
    ((extract_videos_from_grid grid).1.map VideoEntry.video_id)
    (extract_videos_from_grid grid).1 tr0 coll0 hcrawl
  rw [h4] at hS
  injection hS with hS
  injection hS with hS1 hS2
  subst hS1
  subst hS2
  constructor
  · rw [hres']
    cases lim with
    | none => exact hnd0
    | some n =>
      simp only [truncateLimit]
      rw [List.map_take]
      exact List.Nodup.sublist (List.take_sublist _ _) hnd0
  · have hfirst : firstOccurrences [] ((extract_videos_from_grid grid).1 ++ stream)
        = (extract_videos_from_grid grid).1
          ++ firstOccurrences ((extract_videos_from_grid grid).1.map VideoEntry.video_id)
              stream := by
      rw [firstOccurrences_append]
      rw [firstOccurrences_of_nodup _ [] (by simp) h3]
      congr 1
      apply firstOccurrences_congr
      intro s
      simp
    have hseen0 : ∀ s, s ∈ (extract_videos_from_grid grid).1.map VideoEntry.video_id
        ↔ ∃ e ∈ (extract_videos_from_grid grid).1, e.video_id = s := by
      intro s
      exact List.mem_map
    rcases crawlS_spec fetchC lim fuel (extract_videos_from_grid grid).2
        ((extract_videos_from_grid grid).1.map VideoEntry.video_id)
        (extract_videos_from_grid grid).1 stream collS h4 hseen0
      with heq0 | ⟨N, hN, hlen, hpre⟩
    · rw [hres', hfirst, heq0]
    · subst hN
      obtain ⟨t, ht⟩ := hpre
      rw [hres', hfirst, ← ht]
      simp only [truncateLimit]
      rw [List.take_append_eq_append_take]
      rw [show N - collS.length = 0 from by omega]
      simp

/-- [C2] witness for `c2_first_occurrence`: a duplicate-free initial page
`[a, b]` plus one continuation page `[a, c]` repeating id `a`; the result is
the first-occurrence dedup `[a, b, c]` of the full encounter stream
`[a, b] ++ [a, c]` — one entry per id, each at its first position. -/
theorem c2_first_occurrence_witness :
    scrapeM (fun _ => mkPage [vidItem "a", vidItem "c"]) 3 Option.none
        (mkInitData [vidItem "a", vidItem "b", contItem "t"]) cfg0
      = some [plainEntry "a", plainEntry "b", plainEntry "c"] ∧
      (([plainEntry "a", plainEntry "b", plainEntry "c"] : List VideoEntry).map
        VideoEntry.video_id).Nodup ∧
      ([plainEntry "a", plainEntry "b", plainEntry "c"] : List VideoEntry)
        = truncateLimit Option.none (firstOccurrences []
            ((extract_videos_from_grid
              [vidItem "a", vidItem "b", contItem "t"]).1
              ++ [plainEntry "a", plainEntry "c"])) :=
  ⟨rfl,
   (c2_first_occurrence (fun _ => mkPage [vidItem "a", vidItem "c"]) 3 Option.none
     (mkInitData [vidItem "a", vidItem "b", contItem "t"]) cfg0
     [vidItem "a", vidItem "b", contItem "t"]
     [plainEntry "a", plainEntry "b", plainEntry "c"]
     [plainEntry "a", plainEntry "c"]
     [plainEntry "a", plainEntry "b", plainEntry "c"] rfl rfl (by decide) rfl).1,
   (c2_first_occurrence (fun _ => mkPage [vidItem "a", vidItem "c"]) 3 Option.none
     (mkInitData [vidItem "a", vidItem "b", contItem "t"]) cfg0
     [vidItem "a", vidItem "b", contItem "t"]
     [plainEntry "a", plainEntry "b", plainEntry "c"]
     [plainEntry "a", plainEntry "c"]
     [plainEntry "a", plainEntry "b", plainEntry "c"] rfl rfl (by decide) rfl).2⟩

/-! ### C4 — when fetches happen relative to the limit -/

theorem addVideos_not_stopped_lt (N : Nat) :
    ∀ (vs : List VideoEntry) (seen : List String) (coll : List VideoEntry)
      (seen' : List String) (coll' : List VideoEntry),
    addVideos (some N) vs seen coll = (seen', coll', false) →
    coll.length < N → coll'.length < N := by
  intro vs
  induction vs with
  | nil =>
    intro seen coll seen' coll' h hlt
    simp only [addVideos] at h
    injection h with h1 h2
    injection h2 with h2 _
    subst h2
    exact hlt
  | cons v vs ih =>
    intro seen coll seen' coll' h hlt
    simp only [addVideos] at h
    by_cases hmem : v.video_id ∈ seen
    · rw [if_pos hmem] at h
      exact ih seen coll seen' coll' h hlt
    · rw [if_neg hmem] at h
      by_cases hlimit : limitHit (some N) (coll ++ [v]).length = true
      · rw [if_pos hlimit] at h
        injection h with _ h2
        injection h2 with _ h3
        cases h3
      · rw [if_neg hlimit] at h
        have hlt' : (coll ++ [v]).length < N := by
          simp only [limitHit, decide_eq_true_eq] at hlimit
          omega
        exact ih _ _ _ _ h hlt'

theorem crawl_fetch_below_limit (fetchC : String → PyVal) (N : Nat) :
    ∀ (fuel : Nat) (tokens seen : List String) (coll : List VideoEntry)
      (tr : List (String × Nat)) (res : List VideoEntry),
    crawl fetchC (some N) fuel tokens seen coll = some (tr, res) →
    coll.length < N →
    ∀ p ∈ tr, p.2 < N := by
  intro fuel
  induction fuel with
  | zero =>
    intro tokens seen coll tr res h hlt p hp
    cases tokens with
    | nil =>
      simp only [crawl] at h
      injection h with h1
      injection h1 with h1 _
      subst h1
      simp at hp
    | cons t rest => simp [crawl] at h
  | succ fuel ih =>
    intro tokens seen coll tr res h hlt p hp
    cases tokens with
    | nil =>
      simp only [crawl] at h
      injection h with h1
      injection h1 with h1 _
      subst h1
      simp at hp
    | cons t rest =>
      simp only [crawl] at h
      cases hfv : asList (find_value (fetchC t) "continuationItems") with
      | none =>
        rw [hfv] at h
        simp only at h
        injection h with h1
        injection h1 with h1 _
        subst h1
        simp only [List.mem_singleton] at hp
        subst hp
        exact hlt
      | some items =>
        rw [hfv] at h
        simp only at h
        rcases hadd : addVideos (some N) (extract_videos_from_grid items).1 seen coll
          with ⟨seen', coll', st⟩
        rw [hadd] at h
        cases st with
        | true =>
          simp only at h
          injection h with h1
          injection h1 with h1 _
          subst h1
          simp only [List.mem_singleton] at hp
          subst hp
          exact hlt
        | false =>
          simp only [Option.map_eq_some'] at h
          obtain ⟨⟨tr0, res0⟩, hc, heq⟩ := h
          injection heq with htr _
          subst htr
          rcases List.mem_cons.mp hp with h1 | h1
          · subst h1
            exact hlt
          · exact ih (rest ++ (extract_videos_from_grid items).2) seen' coll' tr0 res0
              hc (addVideos_not_stopped_lt N _ seen coll seen' coll' hadd hlt) p h1

/-- [C4] counterexample.  With limit 1 and an initial page already holding
one video plus one queued token, the accumulated result has reached the limit
before the loop starts, yet the loop still pops the token and issues a fetch:
the fetch trace records a fetch made while `collected` held 1 ≥ 1 entries,
contradicting "every continuation fetch happens only while the accumulated
result has fewer than N entries". -/
theorem c4_fetch_at_limit_counterexample :
    scrapeTr (fun _ => PyVal.dict []) 3 (some 1)
        (mkInitData [vidItem "a", contItem "t"]) cfg0
      = some ([("t", 1)], [plainEntry "a"]) ∧ ¬ ((1 : Nat) < 1) :=
  ⟨rfl, by omega⟩

/-- [C4] (amended) The limit check sits inside the per-entry append loop, so
it only fires after a fresh entry is appended; the queue is the loop
condition.  Provided the initial page supplies fewer than N entries, the
claim holds: every continuation fetch is issued while the accumulated result
has fewer than N entries (each trace pair records the accumulated length at
fetch time).  When the initial page alone already reaches N, the loop still
fetches queued tokens (see the counterexample). -/
theorem c4_fetch_below_limit (fetchC : String → PyVal) (fuel N : Nat)
    (initial_data config : PyVal) (grid : List PyVal)
    (tr : List (String × Nat)) (res : List VideoEntry)
    (h1 : scrapeTr fetchC fuel (some N) initial_data config = some (tr, res))
    (h2 : extract_initial_grid initial_data = some grid)
    (h3 : (extract_videos_from_grid grid).1.length < N) :
    ∀ p ∈ tr, p.2 < N := by
  simp only [scrapeTr, Option.bind_eq_some, Option.map_eq_some'] at h1
  obtain ⟨apicfg, hapi, grid', hgrid', hmap⟩ := h1
  rw [h2] at hgrid'
  injection hgrid' with hgrid'
  subst hgrid'
  obtain ⟨⟨tr0, coll0⟩, hcrawl, heq⟩ := hmap
  injection heq with htr _
  subst htr
  exact crawl_fetch_below_limit fetchC N fuel (extract_videos_from_grid grid).2
    ((extract_videos_from_grid grid).1.map VideoEntry.video_id)
    (extract_videos_from_grid grid).1 tr0 coll0 hcrawl h3

/-- [C4] witness for `c4_fetch_below_limit`: the initial page has one video,
the limit is 2, one continuation page supplies video `b`; the single fetch in
the trace happened with 1 < 2 entries accumulated. -/
theorem c4_fetch_below_limit_witness :
    scrapeTr (fun _ => mkPage [vidItem "b"]) 3 (some 2)
        (mkInitData [vidItem "a", contItem "t"]) cfg0
      = some ([("t", 1)], [plainEntry "a", plainEntry "b"]) ∧ (1 : Nat) < 2 :=
  ⟨rfl,
   c4_fetch_below_limit (fun _ => mkPage [vidItem "b"]) 3 2
     (mkInitData [vidItem "a", contItem "t"]) cfg0 [vidItem "a", contItem "t"]
     [("t", 1)] [plainEntry "a", plainEntry "b"] rfl rfl (by decide)
     ("t", 1) (by decide)⟩

/-! ### C3 — limit enforcement -/

theorem addVideos_unlimited (N : Nat) :
    ∀ (vs : List VideoEntry) (seen : List String) (coll : List VideoEntry)
      (seen' : List String) (coll' : List VideoEntry),
    addVideos (some N) vs seen coll = (seen', coll', false) →
    addVideos Option.none vs seen coll = (seen', coll', false) := by
  intro vs
  induction vs with
  | nil =>
    intro seen coll seen' coll' h
    simpa [addVideos] using h
  | cons v vs ih =>
    intro seen coll seen' coll' h
    simp only [addVideos] at h ⊢
    by_cases hmem : v.video_id ∈ seen
    · rw [if_pos hmem] at h ⊢
      exact ih seen coll seen' coll' h
    · rw [if_neg hmem] at h ⊢
      rw [if_neg (by simp [limitHit] : ¬ limitHit Option.none (coll ++ [v]).length = true)]
      by_cases hlimit : limitHit (some N) (coll ++ [v]).length = true
      · rw [if_pos hlimit] at h
        injection h with _ h2
        injection h2 with _ h3
        cases h3
      · rw [if_neg hlimit] at h
        exact ih _ _ _ _ h

theorem crawl_limited_cases (fetchC : String → PyVal) (N : Nat) :
    ∀ (fuel : Nat) (tokens seen : List String) (coll : List VideoEntry)
      (tr : List (String × Nat)) (res : List VideoEntry),
    crawl fetchC (some N) fuel tokens seen coll = some (tr, res) →
    N ≤ res.length ∨ crawl fetchC Option.none fuel tokens seen coll = some (tr, res) := by
  intro fuel
  induction fuel with
  | zero =>
    intro tokens seen coll tr res h
    cases tokens with
    | nil => right; simpa [crawl] using h
    | cons t rest => simp [crawl] at h
  | succ fuel ih =>
    intro tokens seen coll tr res h
    cases tokens with
    | nil => right; simpa [crawl] using h
    | cons t rest =>
      simp only [crawl] at h ⊢
      cases hfv : asList (find_value (fetchC t) "continuationItems") with
      | none =>
        simp only [hfv] at h ⊢
        right
        exact h
      | some items =>
        simp only [hfv] at h ⊢
        rcases hadd : addVideos (some N) (extract_videos_from_grid items).1 seen coll
          with ⟨seen', coll', st⟩
        rw [hadd] at h
        cases st with
        | true =>
          simp only at h
          injection h with h1
          injection h1 with _ h2
          subst h2
          left
          exact addVideos_stopped_ge N _ seen coll seen' coll' hadd
        | false =>
          simp only [Option.map_eq_some'] at h
          obtain ⟨⟨tr0, res0⟩, hc, heq⟩ := h
          rcases ih (rest ++ (extract_videos_from_grid items).2) seen' coll' tr0 res0 hc
            with hge | hnone
          · left
            injection heq with _ h2
            subst h2
            exact hge
          · right
            rw [addVideos_unlimited N _ seen coll seen' coll' hadd]
            simp only [Option.map_eq_some']
            exact ⟨(tr0, res0), hnone, heq⟩

/-- [C3] `scrape(limit=N)` returns exactly N entries whenever the pages the
crawl traverses would together yield more than N unique videos — "would
together yield" formalised as the unique-id count of the same crawl run
without a limit (same fetch responses, same fuel).  Either the limited run
stops at the limit (so at least N entries are accumulated), or it coincides
with the unlimited run, whose length is at least the unique count > N; in
both cases the final `collected[:N]` has exactly N entries. -/
theorem c3_limit_exact (fetchC : String → PyVal) (fuel N : Nat)
    (initial_data config : PyVal) (res resAll : List VideoEntry)
    (h1 : scrapeM fetchC fuel (some N) initial_data config = some res)
    (h2 : scrapeM fetchC fuel Option.none initial_data config = some resAll)
    (h3 : N < ((resAll.map VideoEntry.video_id).dedup).length) :
    res.length = N := by
  simp only [scrapeM, scrapeTr, Option.map_eq_some', Option.bind_eq_some] at h1 h2
  obtain ⟨⟨trL, outL⟩, ⟨api1, hapi1, grid1, hgrid1, ⟨⟨trL0, collL⟩, hcrawlL, heqL⟩⟩, hresL⟩ := h1
  obtain ⟨⟨trA, outA⟩, ⟨api2, hapi2, grid2, hgrid2, ⟨⟨trA0, collA⟩, hcrawlA, heqA⟩⟩, hresA⟩ := h2
  rw [hgrid1] at hgrid2
  injection hgrid2 with hgrid2
  subst hgrid2
  injection heqL with _ houtL
  injection heqA with _ houtA
  have hres' : res = collL.take N := by
    rw [← hresL, ← houtL]
    rfl
  have hAll : resAll = collA := by
    rw [← hresA, ← houtA]
    rfl
  rcases crawl_limited_cases fetchC N fuel (extract_videos_from_grid grid1).2
      ((extract_videos_from_grid grid1).1.map VideoEntry.video_id)
      (extract_videos_from_grid grid1).1 trL0 collL hcrawlL with hge | hsame
  · rw [hres', List.length_take]
    omega
  · rw [hcrawlA] at hsame
    injection hsame with hsame
    injection hsame with _ hcoll
    have hlen : ((resAll.map VideoEntry.video_id).dedup).length ≤ collL.length := by
      calc ((resAll.map VideoEntry.video_id).dedup).length
          ≤ (resAll.map VideoEntry.video_id).length :=
            (List.dedup_sublist _).length_le
        _ = resAll.length := List.length_map _ _
        _ = collL.length := by rw [hAll, hcoll]
    rw [hres', List.length_take]
    omega

/-- [C3] witness for `c3_limit_exact`: initial page `[a, b]` plus one
continuation page with `c`; with limit 1 the crawl overshoots to 3 collected
entries and truncation returns exactly 1; the unlimited run yields 3 > 1
unique videos. -/
theorem c3_limit_exact_witness :
    scrapeM (fun _ => mkPage [vidItem "c"]) 3 (some 1)
        (mkInitData [vidItem "a", vidItem "b", contItem "t"]) cfg0
      = some [plainEntry "a"] ∧
      ([plainEntry "a"] : List VideoEntry).length = 1 :=
  ⟨rfl,
   c3_limit_exact (fun _ => mkPage [vidItem "c"]) 3 1
     (mkInitData [vidItem "a", vidItem "b", contItem "t"]) cfg0
     [plainEntry "a"] [plainEntry "a", plainEntry "b", plainEntry "c"]
     rfl rfl (by decide)⟩
